import Mathlib

/-!
Formal model of the statannot annotation pipeline, shallowly embedding
`statannot/statannot.py` (function `add_stat_annotation`) and
`statannot/format_annotations.py` (functions `pval_annotation_text` and
`simple_text`).

Modelling conventions:
* Python floats are modelled as exact rationals (`ℚ`); all arithmetic in the
  annotation-placement engine is exact.
* `np.nan` (the `ymax` of an empty data sample) is modelled as `Option ℚ`
  with `none` standing for NaN; `np.nanargmax` is modelled accordingly.
* External collaborators that live outside the two source files — the seaborn
  plotter objects (group geometry extraction), the statistical test functions
  (`statannot.stats.tests.stat_test`), the multiple-comparison correction
  callables, and matplotlib text measurement — are modelled as explicit inputs
  (resolved geometry, a stat-test oracle, an optional batch-correction
  callable, a text-top measurement oracle): the repository's own code treats
  them as pluggable capabilities.
* Python `sorted` is a stable sort; it is modelled by a stable insertion sort.
* Python exceptions (`ValueError`, `AssertionError`, numpy index errors) are
  modelled by an `Except AnnErr` result; drawing side effects (matplotlib
  `ax.plot` / `ax.annotate` calls) appear only in the `ok` payload as a list
  of draw commands, so an error result corresponds to a call that raised
  before mutating the plot surface.
-/

deriving instance DecidableEq for Except

attribute [local semireducible] Rat.mul Rat.add Rat.sub Rat.inv

namespace Statannot

/-- Exceptions which the modelled pipeline can raise.  Each constructor
corresponds to one `raise`/`assert`/library-error site of the source. -/
inductive AnnErr where
  /-- `If perform_stat_test is True, test must be specified.` -/
  | testNeeded
  /-- `If perform_stat_test is True, custom pvalues or test_short_name must be None.` -/
  | customWithTest
  /-- `test value should be one of the following: ...` -/
  | unknownTest
  /-- `If perform_stat_test is False, custom pvalues must be specified.` -/
  | pvaluesNeeded
  /-- `If perform_stat_test is False, test must be None.` -/
  | testMustBeNone
  /-- `pvalues should be of the same length as box_pairs.` -/
  | pvaluesLengthMismatch
  /-- `text_annot_custom should be of same length as box_pairs.` -/
  | customTextLengthMismatch
  /-- `assert_is_in` failure on argument `loc`. -/
  | invalidLoc
  /-- `assert_is_in` failure on argument `text_format`. -/
  | invalidTextFormat
  /-- `box_pairs contains an invalid box pair.` -/
  | invalidBoxPair
  /-- `pvalue_thresholds are not monotonically decreasing` (assertion in
  `pval_annotation_text`). -/
  | thresholdsNotMonotonic
  /-- `np.nanargmax` raising on an all-NaN (or empty) selection. -/
  | allNaN
  /-- numpy index error on an out-of-range index. -/
  | badIndex
  /-- reading a NaN `ymax` at the computed argmax index. -/
  | nanRead
  /-- Python `UnboundLocalError` for an unexpected `text_format` inside the
  annotation loop (unreachable after validation). -/
  | unboundText
  /-- Python `max([])` raising `ValueError` when no box pairs were processed. -/
  | noBoxPairs
deriving DecidableEq

/-! ### Stable sorting by a rational key

Python's `sorted(..., key=...)` is a stable sort; we model it by a stable
insertion sort: an element is inserted before the first element with a
strictly greater key, hence after all earlier elements with an equal key. -/

/-- Insert `a` into `l`, before the first element whose key is not smaller
than the key of `a`. -/
def insertLe {α : Type} (key : α → ℚ) (a : α) : List α → List α
  | [] => [a]
  | b :: l => if key a ≤ key b then a :: b :: l else b :: insertLe key a l

/-- Stable sort by a rational key (model of Python `sorted(..., key=...)`). -/
def sortByKey {α : Type} (key : α → ℚ) : List α → List α
  | [] => []
  | a :: l => insertLe key a (sortByKey key l)

theorem perm_insertLe {α : Type} (key : α → ℚ) (a : α) (l : List α) :
    (insertLe key a l).Perm (a :: l) := by
  induction l with
  | nil => simp [insertLe]
  | cons b l ih =>
    by_cases h : key a ≤ key b
    · simp [insertLe, h]
    · simp only [insertLe, h, if_false]
      exact ((ih.cons b).trans (List.Perm.swap a b l))

theorem perm_sortByKey {α : Type} (key : α → ℚ) (l : List α) :
    (sortByKey key l).Perm l := by
  induction l with
  | nil => simp [sortByKey]
  | cons a l ih =>
    exact (perm_insertLe key a (sortByKey key l)).trans (ih.cons a)

theorem mem_insertLe {α : Type} (key : α → ℚ) (a b : α) (l : List α) :
    b ∈ insertLe key a l ↔ b = a ∨ b ∈ l := by
  rw [(perm_insertLe key a l).mem_iff]
  simp

theorem mem_sortByKey {α : Type} (key : α → ℚ) (b : α) (l : List α) :
    b ∈ sortByKey key l ↔ b ∈ l :=
  (perm_sortByKey key l).mem_iff

theorem pairwise_le_insertLe {α : Type} (key : α → ℚ) (a : α) :
    ∀ l : List α, l.Pairwise (fun x y => key x ≤ key y) →
      (insertLe key a l).Pairwise (fun x y => key x ≤ key y) := by
  intro l
  induction l with
  | nil => simp [insertLe]
  | cons b t ih =>
    intro hl
    by_cases h : key a ≤ key b
    · simp only [insertLe, h, if_true]
      refine List.Pairwise.cons ?_ hl
      intro c hc
      rcases List.mem_cons.mp hc with rfl | hc
      · exact h
      · exact le_trans h (List.rel_of_pairwise_cons hl hc)
    · simp only [insertLe, h, if_false]
      refine List.Pairwise.cons ?_ (ih hl.tail)
      intro c hc
      rcases (mem_insertLe key a c t).mp hc with rfl | hc
      · exact le_of_lt (lt_of_not_le h)
      · exact List.rel_of_pairwise_cons hl hc

/-- Sorting gives pairwise non-decreasing keys. -/
theorem pairwise_le_sortByKey {α : Type} (key : α → ℚ) (l : List α) :
    (sortByKey key l).Pairwise (fun x y => key x ≤ key y) := by
  induction l with
  | nil => simp [sortByKey]
  | cons a l ih => exact pairwise_le_insertLe key a (sortByKey key l) ih

theorem pairwise_lex_insertLe {α : Type} (key : α → ℚ) (idx : α → ℕ) (a : α) :
    ∀ l : List α, l.Pairwise (fun x y => key x ≤ key y) →
      (∀ b ∈ l, idx a < idx b) →
      l.Pairwise (fun x y => key x < key y ∨ (key x = key y ∧ idx x < idx y)) →
      (insertLe key a l).Pairwise
        (fun x y => key x < key y ∨ (key x = key y ∧ idx x < idx y)) := by
  intro l
  induction l with
  | nil =>
    intro _ _ _
    simp [insertLe]
  | cons b t ih =>
    intro hle hidx hlex
    by_cases h : key a ≤ key b
    · simp only [insertLe, h, if_true]
      refine List.Pairwise.cons ?_ hlex
      intro c hc
      have hac : key a ≤ key c := by
        rcases List.mem_cons.mp hc with rfl | hc
        · exact h
        · exact le_trans h (List.rel_of_pairwise_cons hle hc)
      rcases lt_or_eq_of_le hac with h1 | h1
      · exact Or.inl h1
      · exact Or.inr ⟨h1, hidx c hc⟩
    · simp only [insertLe, h, if_false]
      refine List.Pairwise.cons ?_ ?_
      · intro c hc
        rcases (mem_insertLe key a c t).mp hc with rfl | hc
        · exact Or.inl (lt_of_not_le h)
        · exact List.rel_of_pairwise_cons hlex hc
      · exact ih hle.tail (fun c hc => hidx c (List.mem_cons_of_mem b hc)) hlex.tail

/-- Stability: if the input list is strictly increasing on an auxiliary index
`idx`, the sorted output is pairwise increasing in the lexicographic order
(key first, index second).  This captures both the key ordering and the
stability of Python's `sorted`. -/
theorem pairwise_lex_sortByKey {α : Type} (key : α → ℚ) (idx : α → ℕ)
    (l : List α) (h : l.Pairwise fun x y => idx x < idx y) :
    (sortByKey key l).Pairwise
      (fun x y => key x < key y ∨ (key x = key y ∧ idx x < idx y)) := by
  induction l with
  | nil => simp [sortByKey]
  | cons a l ih =>
    refine pairwise_lex_insertLe key idx a (sortByKey key l)
      (pairwise_le_sortByKey key l) ?_ (ih h.tail)
    intro b hb
    exact List.rel_of_pairwise_cons h ((mem_sortByKey key b l).mp hb)

/-! ### Maxima with and without NaN -/

/-- Model of Python `max` over a list of floats (`none` for the empty list,
where Python raises `ValueError`). -/
def listMax : List ℚ → Option ℚ
  | [] => none
  | a :: l =>
    match listMax l with
    | none => some a
    | some m => some (max a m)

theorem listMax_eq_none (l : List ℚ) (h : listMax l = none) : l = [] := by
  cases l with
  | nil => rfl
  | cons a t =>
    exfalso
    simp only [listMax] at h
    cases htl : listMax t <;> rw [htl] at h <;> simp at h

theorem listMax_ge (l : List ℚ) (m : ℚ) (h : listMax l = some m) :
    ∀ x ∈ l, x ≤ m := by
  induction l generalizing m with
  | nil => simp [listMax] at h
  | cons a l ih =>
    intro x hx
    cases hl : listMax l with
    | none =>
      simp only [listMax, hl] at h
      cases h
      rcases List.mem_cons.mp hx with rfl | hx
      · exact le_refl x
      · rw [listMax_eq_none l hl] at hx
        simp at hx
    | some k =>
      simp only [listMax, hl] at h
      cases h
      rcases List.mem_cons.mp hx with rfl | hx
      · exact le_max_left x k
      · exact le_trans (ih k hl x hx) (le_max_right a k)

/-- Model of the `ymaxs` list built in the annotation loop: running maxima of
the consumed tops collected so far (`ymaxs.append(max(y_stack))`). -/
def runningMaxs : List ℚ → List ℚ
  | [] => []
  | a :: l => a :: (runningMaxs l).map (fun x => max a x)

theorem listMax_map_max (a : ℚ) (l : List ℚ) :
    listMax (l.map (fun x => max a x)) = (listMax l).map (fun m => max a m) := by
  induction l with
  | nil => simp [listMax]
  | cons b l ih =>
    cases hl : listMax l with
    | none =>
      cases l <;> simp_all [listMax]
    | some m =>
      simp only [listMax, ih, hl, Option.map_some']
      rw [sup_sup_sup_comm, sup_idem, sup_left_comm]

/-- `max(ymaxs)` equals the maximum of the consumed tops themselves. -/
theorem listMax_runningMaxs (l : List ℚ) :
    listMax (runningMaxs l) = listMax l := by
  induction l with
  | nil => rfl
  | cons a l ih =>
    simp only [runningMaxs, listMax, listMax_map_max, ih]
    cases hl : listMax l with
    | none => simp
    | some m => simp [max_self]

/-- Model of `np.nanargmax` over a vector with NaN entries: the index of the
first occurrence of the maximum among the non-NaN entries, together with that
maximum; `none` when every entry is NaN or the vector is empty (where numpy
raises). -/
def nanargmax : List (Option ℚ) → Option (ℕ × ℚ)
  | [] => none
  | none :: l =>
    match nanargmax l with
    | none => none
    | some im => some (im.1 + 1, im.2)
  | some x :: l =>
    match nanargmax l with
    | none => some (0, x)
    | some im => if x < im.2 then some (im.1 + 1, im.2) else some (0, x)

theorem nanargmax_eq_none (l : List (Option ℚ)) (h : nanargmax l = none) :
    ∀ o ∈ l, o = none := by
  induction l with
  | nil => simp
  | cons a l ih =>
    intro o ho
    cases a with
    | none =>
      cases hl : nanargmax l with
      | none =>
        rcases List.mem_cons.mp ho with rfl | ho
        · rfl
        · exact ih hl o ho
      | some im => simp [nanargmax, hl] at h
    | some x =>
      exfalso
      cases hl : nanargmax l with
      | none => simp [nanargmax, hl] at h
      | some im =>
        simp only [nanargmax, hl] at h
        split at h <;> simp at h

theorem nanargmax_le (l : List (Option ℚ)) (r : ℕ) (m : ℚ)
    (h : nanargmax l = some (r, m)) : ∀ o ∈ l, ∀ v : ℚ, o = some v → v ≤ m := by
  induction l generalizing r m with
  | nil => simp [nanargmax] at h
  | cons a l ih =>
    intro o ho v hv
    cases a with
    | none =>
      cases hl : nanargmax l with
      | none => simp [nanargmax, hl] at h
      | some im =>
        simp only [nanargmax, hl] at h
        cases h
        rcases List.mem_cons.mp ho with rfl | ho
        · simp at hv
        · exact ih im.1 im.2 (by rw [hl]) o ho v hv
    | some x =>
      cases hl : nanargmax l with
      | none =>
        simp only [nanargmax, hl] at h
        cases h
        rcases List.mem_cons.mp ho with rfl | ho
        · cases hv; exact le_refl _
        · rw [nanargmax_eq_none l hl o ho] at hv
          simp at hv
      | some im =>
        simp only [nanargmax, hl] at h
        split at h <;> cases h
        · rename_i hlt
          rcases List.mem_cons.mp ho with rfl | ho
          · cases hv; exact le_of_lt hlt
          · exact ih im.1 im.2 (by rw [hl]) o ho v hv
        · rename_i hnlt
          rcases List.mem_cons.mp ho with rfl | ho
          · cases hv; exact le_refl _
          · exact le_trans (ih im.1 im.2 (by rw [hl]) o ho v hv) (not_lt.mp hnlt)

theorem nanargmax_get (l : List (Option ℚ)) (r : ℕ) (m : ℚ)
    (h : nanargmax l = some (r, m)) :
    ∃ hr : r < l.length, l.get ⟨r, hr⟩ = some m := by
  induction l generalizing r m with
  | nil => simp [nanargmax] at h
  | cons a l ih =>
    cases a with
    | none =>
      cases hl : nanargmax l with
      | none => simp [nanargmax, hl] at h
      | some im =>
        simp only [nanargmax, hl] at h
        cases h
        obtain ⟨hr, hg⟩ := ih im.1 im.2 (by rw [hl])
        exact ⟨by simpa using Nat.succ_lt_succ hr, by simpa using hg⟩
    | some x =>
      cases hl : nanargmax l with
      | none =>
        simp only [nanargmax, hl] at h
        cases h
        exact ⟨by simp, rfl⟩
      | some im =>
        simp only [nanargmax, hl] at h
        split at h <;> cases h
        · obtain ⟨hr, hg⟩ := ih im.1 im.2 (by rw [hl])
          exact ⟨by simpa using Nat.succ_lt_succ hr, by simpa using hg⟩
        · exact ⟨by simp, rfl⟩

/-! ### Data model

`StatResult` is modelled from the spec (its class lives in `stats/StatResult.py`,
outside the two source files): test name/short-name, optional test statistic,
p-value, significance suffix (default empty), optional correction data. -/

/-- Modelled from the spec: the TestResult struct (class `StatResult` of
`statannot.stats.StatResult`, not under src/): test description and short
name, optional statistic, p-value, significance suffix defaulting to the
empty string, and optional multiple-comparison correction outcome. -/
structure StatResult where
  testDescription : String := ""
  testShortName : String := ""
  stat : Option ℚ := none
  pval : ℚ := 0
  significanceSuffix : String := ""
  correctionMethod : Option String := none
  correctedSignificance : Option Bool := none
  box1 : String := ""
  box2 : String := ""
deriving DecidableEq, Inhabited

/-- Modelled from the spec: a type-1 (batch) comparisons-correction callable
(`statannot.stats.ComparisonsCorrection`, not under src/): it has a name and
maps the list of p-values and an alpha to one significance flag per p-value.
Type-0 (per-pvalue) corrections act inside the external `stat_test` call and
are folded into the stat-test oracle. -/
structure BatchCorrection where
  name : String
  apply : List ℚ → ℚ → List Bool

/-- The `text_format` argument: the three validated selectors, the Python
`None` value, and a catch-all for any other invalid value. -/
inductive TextFormat where
  | full
  | simple
  | star
  | noText
  | other
deriving DecidableEq

/-- The `loc` argument (`inside`/`outside`), plus a catch-all invalid value. -/
inductive Loc where
  | inside
  | outside
  | otherLoc
deriving DecidableEq

/-- One drawing side effect on the plot surface: the bracket step line
(`ax.plot`) or the annotation text (`ax.annotate`). -/
inductive DrawCmd where
  | bracket (x1 x2 y h : ℚ)
  | text (x y : ℚ) (s : String)
deriving DecidableEq

/-! ### format_annotations.py -/

/-- Abstraction of Python float formatting (`'{:.3e}'.format(p)` and
friends).  The exact digit strings are produced by the external float
formatter; no claim depends on them, only on which branch produced the
text. -/
def formatPvalue (q : ℚ) : String := toString q

/-- Default `pvalue_thresholds` (lines 106-112 of statannot.py). -/
def defaultThresholds : TextFormat → List (ℚ × String)
  | TextFormat.star =>
      [(1/10000, "****"), (1/1000, "***"), (1/100, "**"), (1/20, "*"), (1, "ns")]
  | _ =>
      [(1/100000, "1e-5"), (1/10000, "1e-4"), (1/1000, "0.001"), (1/100, "0.01")]

/-- The main loop of `pval_annotation_text`, over the thresholds sorted by
descending cutoff: assert strict decrease against the previous upper bound
(seeded with 1.1), then overwrite the annotation for p-values at or below the
cutoff; at the end append the significance suffix. -/
def pvalGo (pval : ℚ) (suffix : String) : ℚ → String → List (ℚ × String) →
    Except AnnErr String
  | _, cur, [] => Except.ok (cur ++ suffix)
  | last, cur, t :: rest =>
    if t.1 < last then
      pvalGo pval suffix t.1 (if pval ≤ t.1 then t.2 else cur) rest
    else Except.error AnnErr.thresholdsNotMonotonic

/-- Model of `pval_annotation_text` for a single result (the list-vectorised
path reduces to mapping this over the results; `return_results` unwraps the
single-element case).  The pandas descending sort is modelled by the stable
sort on the negated cutoff; with duplicate cutoffs the assertion fires
regardless of the order of the duplicates, so stability is irrelevant. -/
def pvalAnnotationText (pval : ℚ) (suffix : String)
    (thresholds : List (ℚ × String)) : Except AnnErr String :=
  pvalGo pval suffix (11/10) "" (sortByKey (fun t => -t.1) thresholds)

/-- Model of `simple_text`: thresholds sorted ascending; the first cutoff
strictly above the p-value gives the label, otherwise the formatted exact
p-value is shown; optional test-name prefixed, suffix appended. -/
def simpleText (pval : ℚ) (suffix : String) (thresholds : List (ℚ × String))
    (testShortName : String) : String :=
  let thr := sortByKey (fun t => t.1) thresholds
  let head := if testShortName = "" then "" else testShortName ++ " "
  let pvalText :=
    match thr.find? (fun t => decide (pval < t.1)) with
    | some t => "p ≤ " ++ t.2
    | none => "p = " ++ formatPvalue pval
  head ++ pvalText ++ suffix

/-- Model of the `full` text format (line 327):
`"{} p = {}{}".format(short_name, formatted pval, suffix)`. -/
def fullText (short : String) (pvalStr : String) (suffix : String) : String :=
  short ++ " p = " ++ pvalStr ++ suffix

/-! ### Box structs and pair resolution (statannot.py lines 201-247) -/

/-- One resolved box: name (a group name, or a flattened (group, hue)
label), x-position, data sample (missing values already removed by the
external `remove_na`), `ymax` (`none` = NaN for an empty sample) and the
index `xi` in x-sorted order. -/
structure BoxStruct where
  name : String
  x : ℚ
  data : List ℚ
  ymax : Option ℚ
  xi : ℕ
deriving DecidableEq

/-- Map with a running index (used to attach the `xi` field). -/
def enumMap {α β : Type} (f : ℕ → α → β) : ℕ → List α → List β
  | _, [] => []
  | i, a :: l => f i a :: enumMap f (i + 1) l

/-- Build the box structs from the resolved plot geometry: compute `ymax`
(`np.amax`, NaN when the sample is empty), sort by x-position, attach the
sequential index `xi`. -/
def mkBoxStructs (geom : List (String × ℚ × List ℚ)) : List BoxStruct :=
  enumMap
    (fun i g => { name := g.1, x := g.2.1, data := g.2.2,
                  ymax := listMax g.2.2, xi := i })
    0 (sortByKey (fun g => g.2.1) geom)

/-- A resolved comparison pair: members oriented so that `left.x ≤ right.x`,
carrying the original request index `i_box_pair`. -/
structure PairStruct where
  left : BoxStruct
  right : BoxStruct
  idx : ℕ
deriving DecidableEq

/-- Build the list of box struct pairs (lines 229-243): validate each
requested pair against the resolved box names (raising the invalid-pair
error), attach the request index and orient by x-position.  The source looks
names up in a dict built from the box structs; with the spec's unique group
names this is the same as the first-match search used here. -/
def buildPairs (boxes : List BoxStruct) :
    List (String × String) → ℕ → Except AnnErr (List PairStruct)
  | [], _ => Except.ok []
  | pr :: rest, i =>
    match boxes.find? (fun s => s.name = pr.1),
          boxes.find? (fun s => s.name = pr.2) with
    | some s1, some s2 =>
      let p := if s1.x ≤ s2.x then PairStruct.mk s1 s2 i else PairStruct.mk s2 s1 i
      match buildPairs boxes rest (i + 1) with
      | Except.error e => Except.error e
      | Except.ok l => Except.ok (p :: l)
    | _, _ => Except.error AnnErr.invalidBoxPair

/-- Sort the resolved pairs by the between-box distance (line 247);
Python `sorted` is stable. -/
def sortPairs (l : List PairStruct) : List PairStruct :=
  sortByKey (fun p => |p.right.x - p.left.x|) l

/-! ### The occupancy stack and the placement engine (lines 250-387) -/

/-- One column of `y_stack_arr`: the x-position, the highest consumed
y-value there (`none` = NaN), and the count of stacked annotations. -/
structure StackEntry where
  x : ℚ
  topY : Option ℚ
  depth : ℕ
deriving DecidableEq

/-- Initial occupancy stack (lines 252-256): `topY` starts at each box's
`ymax`, replaced by the axis top for `loc='outside'`; depths start at 0. -/
def initStack (loc : Loc) (ylimTop : ℚ) (boxes : List BoxStruct) :
    List StackEntry :=
  boxes.map fun b =>
    { x := b.x,
      topY := match loc with
              | Loc.outside => some ylimTop
              | _ => b.ymax,
      depth := 0 }

/-- The boolean x-range mask `(x1 <= y_stack_arr[0,:]) & (y_stack_arr[0,:] <= x2)`. -/
def inRB (x1 x2 : ℚ) (e : StackEntry) : Bool :=
  decide (x1 ≤ e.x) && decide (e.x ≤ x2)

/-- Line 385: set `topY` to the consumed top for every position in the
x-range mask. -/
def updateTop (x1 x2 yTop : ℚ) (st : List StackEntry) : List StackEntry :=
  st.map fun e => if inRB x1 x2 e then { e with topY := some yTop } else e

/-- Line 387: increment the stacked-annotation counter on the index range
`xi1..xi2` inclusive (`y_stack_arr[2, xi1:xi2+1] += 1`); the first argument
of the recursion is the index of the current head. -/
def bumpDepth (xi1 xi2 : ℕ) : ℕ → List StackEntry → List StackEntry
  | _, [] => []
  | j, e :: l =>
    (if xi1 ≤ j ∧ j ≤ xi2 then { e with depth := e.depth + 1 } else e) ::
      bumpDepth xi1 xi2 (j + 1) l

/-- Result of annotating one pair: the updated stack, the bracket base `y`
and the consumed top `y_top_annot`. -/
structure StepOut where
  st : List StackEntry
  y : ℚ
  yTop : ℚ
deriving DecidableEq

/-- Annotate one pair (lines 337-387): query the leftmost maximum of the
occupancy stack over the pair's x-range with `np.nanargmax` (index arithmetic
`xi1 + relative argmax` as in the source), pick the offset by the stacked
depth at the winning position, place the bracket, obtain the consumed top
(`y + h`, or the measured text top when text is drawn — the measurement
oracle models matplotlib text extent / fallback estimation), and update the
stack.  `hasText` is `text is not None`. -/
def annotStep (yO yOB h : ℚ) (hasText : Bool) (oracle : ℕ → ℚ → ℚ)
    (st : List StackEntry) (p : PairStruct) : Except AnnErr StepOut :=
  match nanargmax ((st.filter (inRB p.left.x p.right.x)).map (fun e => e.topY)) with
  | none => Except.error AnnErr.allNaN
  | some rm =>
    match st.get? (p.left.xi + rm.1) with
    | none => Except.error AnnErr.badIndex
    | some ei =>
      match ei.topY with
      | none => Except.error AnnErr.nanRead
      | some ymaxR =>
        let off := if ei.depth = 0 then yOB else yO
        let y := ymaxR + off
        let yTop := if hasText then oracle p.idx (y + h) else y + h
        Except.ok
          { st := bumpDepth p.left.xi p.right.xi 0
                    (updateTop p.left.x p.right.x yTop st),
            y := y,
            yTop := yTop }

/-- The annotation loop (lines 306-387) over the distance-sorted pairs zipped
with their test results: compute the text to draw, run the placement step,
record the draw commands, the per-pair `(y, y_top_annot)` and the stack state
after each step. -/
def annotLoop (yO yOB h : ℚ) (oracle : ℕ → ℚ → ℚ)
    (textFn : PairStruct → StatResult → Except AnnErr (Option String))
    (st : List StackEntry) :
    List (PairStruct × StatResult) →
      Except AnnErr (List (List StackEntry) × List (ℚ × ℚ) × List DrawCmd)
  | [] => Except.ok ([], [], [])
  | pr :: rest =>
    match textFn pr.1 pr.2 with
    | Except.error e => Except.error e
    | Except.ok textO =>
      match annotStep yO yOB h textO.isSome oracle st pr.1 with
      | Except.error e => Except.error e
      | Except.ok so =>
        match annotLoop yO yOB h oracle textFn so.st rest with
        | Except.error e => Except.error e
        | Except.ok out =>
          Except.ok
            (so.st :: out.1,
             (so.y, so.yTop) :: out.2.1,
             (DrawCmd.bracket pr.1.left.x pr.1.right.x so.y h ::
               (match textO with
                | some s =>
                    [DrawCmd.text ((pr.1.left.x + pr.1.right.x) / 2) (so.y + h) s]
                | none => [])) ++ out.2.2)

/-! ### The add_stat_annotation call -/

/-- Inputs of one `add_stat_annotation` call.  The plot surface is represented
by its resolved geometry (per-box name, x-position and NA-free data sample —
produced in the source by the external seaborn plotter) and its y-limits.
`statTest` is the external statistical test (spec: a pluggable function from
two samples to a result; `test`, per-pvalue correction, `num_comparisons` and
`stats_params` are its captured arguments).  `annotTopOracle` is the external
text measurement: given the pair's request index and the text baseline
`y + h`, it returns the measured (or fallback-estimated) top of the drawn
text in data coordinates. -/
structure AnnotInput where
  geom : List (String × ℚ × List ℚ)
  boxPairs : List (String × String)
  performStatTest : Bool
  pvalues : Option (List ℚ)
  testShortNameArg : Option String
  test : Option String
  implementedTests : List String
  textFormat : TextFormat
  textAnnotCustom : Option (List (Option String))
  loc : Loc
  lineOffset : Option ℚ
  lineOffsetToBox : Option ℚ
  lineHeight : ℚ
  ylim : ℚ × ℚ
  correction : Option BatchCorrection
  alpha : ℚ
  statTest : List ℚ → List ℚ → StatResult
  annotTopOracle : ℕ → ℚ → ℚ
  pvalueThresholds : Option (List (ℚ × String))
  showTestName : Bool

/-- The two `assert_is_in` checks (lines 140-147).  `assert_is_in` lives in
`statannot.utils`, outside the two source files; it is modelled from the
spec: an invalid selector value raises a fatal validation error.  The
allowed lists are the literal lists of the call sites: `loc` in
`['inside', 'outside']` and `text_format` in `['full', 'simple', 'star']`. -/
def validateLocFmt (inp : AnnotInput) : Except AnnErr Unit :=
  match inp.loc with
  | Loc.otherLoc => Except.error AnnErr.invalidLoc
  | _ =>
    match inp.textFormat with
    | TextFormat.full => Except.ok ()
    | TextFormat.simple => Except.ok ()
    | TextFormat.star => Except.ok ()
    | _ => Except.error AnnErr.invalidTextFormat

/-- The `text_annot_custom` length check (lines 137-138) followed by the
selector checks. -/
def validateRest (inp : AnnotInput) : Except AnnErr Unit :=
  match inp.textAnnotCustom with
  | some l =>
    if l.length ≠ inp.boxPairs.length then
      Except.error AnnErr.customTextLengthMismatch
    else validateLocFmt inp
  | none => validateLocFmt inp

/-- Validation of the arguments, in source order (lines 119-147). -/
def validateArgs (inp : AnnotInput) : Except AnnErr Unit :=
  if inp.performStatTest then
    match inp.test with
    | none => Except.error AnnErr.testNeeded
    | some t =>
      if inp.pvalues.isSome ∨ inp.testShortNameArg.isSome then
        Except.error AnnErr.customWithTest
      else if t ∉ inp.implementedTests then
        Except.error AnnErr.unknownTest
      else
        validateRest inp
  else
    match inp.pvalues with
    | none => Except.error AnnErr.pvaluesNeeded
    | some pv =>
      if inp.test.isSome then Except.error AnnErr.testMustBeNone
      else if pv.length ≠ inp.boxPairs.length then
        Except.error AnnErr.pvaluesLengthMismatch
      else
        validateRest inp

/-- Offset-fraction defaulting (lines 167-184): returns
`(line_offset, line_offset_to_box)`. -/
def resolveOffsets (loc : Loc) (lineOffset lineOffsetToBox : Option ℚ) :
    ℚ × ℚ :=
  match lineOffset with
  | none =>
    match loc with
    | Loc.outside => (3/100, lineOffsetToBox.getD (3/100))
    | _ => (1/20, lineOffsetToBox.getD (3/50))
  | some lo =>
    match loc with
    | Loc.outside => (lo, lo)
    | _ => (lo, lineOffsetToBox.getD (3/50))

/-- `y_offset = line_offset * yrange` (line 183). -/
def resolvedYOffset (inp : AnnotInput) : ℚ :=
  (resolveOffsets inp.loc inp.lineOffset inp.lineOffsetToBox).1 *
    (inp.ylim.2 - inp.ylim.1)

/-- `y_offset_to_box = line_offset_to_box * yrange` (line 184). -/
def resolvedYOffsetToBox (inp : AnnotInput) : ℚ :=
  (resolveOffsets inp.loc inp.lineOffset inp.lineOffsetToBox).2 *
    (inp.ylim.2 - inp.ylim.1)

/-- `h = line_height * yrange` (line 352). -/
def resolvedH (inp : AnnotInput) : ℚ :=
  inp.lineHeight * (inp.ylim.2 - inp.ylim.1)

/-- The `pvalue_thresholds` actually used (argument or mode default).  The
verbose star-mode legend printing (lines 152-162) re-sorts the variable
descending; that re-ordering is unobservable because the only later consumer,
`pval_annotation_text`, sorts the table again. -/
def thresholdsOf (inp : AnnotInput) : List (ℚ × String) :=
  inp.pvalueThresholds.getD (defaultThresholds inp.textFormat)

/-- The test short name used by the simple text format (line 334), after the
first loop's reassignment `test_short_name = test_short_name or ''`. -/
def shortNameForSimple (inp : AnnotInput) : String :=
  if inp.showTestName then inp.testShortNameArg.getD "" else ""

/-- The test result for one resolved pair (lines 269-289): either the
external statistical test on the two data samples, or the custom p-value
`pvalues[i_box_pair]`; both branches then record the pair's box names. -/
def computeResult (inp : AnnotInput) (p : PairStruct) : StatResult :=
  if inp.performStatTest then
    { inp.statTest p.left.data p.right.data with
        box1 := p.left.name, box2 := p.right.name }
  else
    { testDescription := "Custom statistical test",
      testShortName := inp.testShortNameArg.getD "",
      stat := none,
      pval := (inp.pvalues.getD []).getD p.idx 0,
      box1 := p.left.name,
      box2 := p.right.name }

/-- In-place marking of the batch-correction outcome over the zip of the
significance flags with the result list (lines 301-303): results beyond the
flag list are left untouched. -/
def markSignif (nm : String) : List StatResult → List Bool → List StatResult
  | rs, [] => rs
  | [], _ => []
  | r :: rs, b :: bs =>
    { r with correctionMethod := some nm, correctedSignificance := some b } ::
      markSignif nm rs bs

/-- Apply a type-1 (batch) correction to the fetched results
(lines 294-303). -/
def applyBatchCorrection (corr : Option BatchCorrection) (alpha : ℚ)
    (rs : List StatResult) : List StatResult :=
  match corr with
  | none => rs
  | some c => markSignif c.name rs (c.apply (rs.map (fun r => r.pval)) alpha)

/-- The full result list, in processing order (the first loop, lines
262-291, followed by the batch correction). -/
def resultsOf (inp : AnnotInput) (sorted : List PairStruct) : List StatResult :=
  applyBatchCorrection inp.correction inp.alpha (sorted.map (computeResult inp))

/-- The text drawn for one pair (lines 323-335): the custom annotation when
given, otherwise by text format.  The branch for the Python `None` format
(line 329) is unreachable after validation, as is the catch-all (where the
Python loop would hit an unbound local `text`). -/
def textFor (inp : AnnotInput) (p : PairStruct) (r : StatResult) :
    Except AnnErr (Option String) :=
  match inp.textAnnotCustom with
  | some l =>
    match l.get? p.idx with
    | some t => Except.ok t
    | none => Except.error AnnErr.badIndex
  | none =>
    match inp.textFormat with
    | TextFormat.full =>
        Except.ok (some (fullText r.testShortName (formatPvalue r.pval)
          r.significanceSuffix))
    | TextFormat.noText => Except.ok none
    | TextFormat.star =>
        match pvalAnnotationText r.pval r.significanceSuffix (thresholdsOf inp) with
        | Except.error e => Except.error e
        | Except.ok s => Except.ok (some s)
    | TextFormat.simple =>
        Except.ok (some (simpleText r.pval r.significanceSuffix
          (thresholdsOf inp) (shortNameForSimple inp)))
    | TextFormat.other => Except.error AnnErr.unboundText

/-- Resolve the geometry and build the validated pair structs. -/
def preparePairs (inp : AnnotInput) : Except AnnErr (List PairStruct) :=
  buildPairs (mkBoxStructs inp.geom) inp.boxPairs 0

/-- Run the annotation loop on the distance-sorted pairs. -/
def runCore (inp : AnnotInput) (sorted : List PairStruct) :
    Except AnnErr (List (List StackEntry) × List (ℚ × ℚ) × List DrawCmd) :=
  annotLoop (resolvedYOffset inp) (resolvedYOffsetToBox inp) (resolvedH inp)
    inp.annotTopOracle (textFor inp)
    (initStack inp.loc inp.ylim.2 (mkBoxStructs inp.geom))
    (sorted.zip (resultsOf inp sorted))

/-- Final y-limits (lines 389-393): for `inside` the upper limit becomes
`max(1.03 * y_stack_max, ylim[1])`; for `outside` the original limits are
restored. -/
def finalYlimOf (inp : AnnotInput) (ysm : ℚ) : ℚ × ℚ :=
  match inp.loc with
  | Loc.inside => (inp.ylim.1, max ((103/100) * ysm) inp.ylim.2)
  | _ => (inp.ylim.1, inp.ylim.2)

/-- Observable outcome of a normally-returning call: the returned result
list, the drawing side effects on the axes, the final y-limits, and (for
specification purposes) the per-pair `(bracket y, consumed top)` values, the
processing order of the pairs and the successive occupancy-stack states. -/
structure AnnotOutput where
  results : List StatResult
  draws : List DrawCmd
  finalYlim : ℚ × ℚ
  annots : List (ℚ × ℚ)
  sortedPairs : List PairStruct
  states : List (List StackEntry)
deriving DecidableEq, Inhabited

/-- The full `add_stat_annotation` call: validate, resolve pairs, sort by
distance, fetch results, apply the batch correction, run the annotation
loop, compute `y_stack_max = max(ymaxs)` (raising on no pairs) and set the
final y-limits. -/
def addStatAnnot (inp : AnnotInput) : Except AnnErr AnnotOutput :=
  match validateArgs inp with
  | Except.error e => Except.error e
  | Except.ok _ =>
    match preparePairs inp with
    | Except.error e => Except.error e
    | Except.ok pairs =>
      match runCore inp (sortPairs pairs) with
      | Except.error e => Except.error e
      | Except.ok out =>
        match listMax (runningMaxs (out.2.1.map (fun a => a.2))) with
        | none => Except.error AnnErr.noBoxPairs
        | some ysm =>
          Except.ok
            { results := resultsOf inp (sortPairs pairs),
              draws := out.2.2,
              finalYlim := finalYlimOf inp ysm,
              annots := out.2.1,
              sortedPairs := sortPairs pairs,
              states := initStack inp.loc inp.ylim.2 (mkBoxStructs inp.geom) :: out.1 }

/-! ### Concrete calls used in counterexamples and witnesses -/

/-- A concrete custom-pvalue call: three boxes at x = 0, 1, 2 and two
requested pairs (A,C) and (B,C), star text format, annotations inside. -/
def inpW : AnnotInput :=
  { geom := [("A", 0, [1]), ("B", 1, [2]), ("C", 2, [3/2])],
    boxPairs := [("A", "C"), ("B", "C")],
    performStatTest := false,
    pvalues := some [1/10, 9/10],
    testShortNameArg := none,
    test := none,
    implementedTests := [],
    textFormat := TextFormat.star,
    textAnnotCustom := none,
    loc := Loc.inside,
    lineOffset := none,
    lineOffsetToBox := none,
    lineHeight := 1/50,
    ylim := (0, 10),
    correction := none,
    alpha := 1/20,
    statTest := fun _ _ => {},
    annotTopOracle := fun _ b => b,
    pvalueThresholds := none,
    showTestName := true }

/-- The outcome of the `inpW` call. -/
def outW : AnnotOutput := ((addStatAnnot inpW).toOption).getD default

example : (addStatAnnot inpW) = Except.ok outW := by decide

example : outW.annots = [(13/5, 14/5), (33/10, 7/2)] := by decide

example : outW.results.map (fun r => (r.box1, r.box2, r.pval)) =
    [("B", "C", (9/10 : ℚ)), ("A", "C", (1/10 : ℚ))] := by decide

example : outW.finalYlim = (0, 10) := by decide

/-- A single-pair variant of `inpW`, with the `none` text format. -/
def inpNoneFmt : AnnotInput :=
  { inpW with
    boxPairs := [("A", "B")],
    pvalues := some [1/2],
    textFormat := TextFormat.noText }

/-- A single-pair variant of `inpW` naming the unknown group Z. -/
def inpBadPair : AnnotInput :=
  { inpW with boxPairs := [("A", "Z")], pvalues := some [1/2] }

/-- A single-pair outside-location call: boxes A (x=0, max 10) and
B (x=1, max 12), y-limits (0, 10). -/
def inpOutside : AnnotInput :=
  { inpW with
    geom := [("A", 0, [10]), ("B", 1, [12])],
    boxPairs := [("A", "B")],
    pvalues := some [1/2],
    loc := Loc.outside }

/-- The outcome of the `inpOutside` call. -/
def outOutside : AnnotOutput := ((addStatAnnot inpOutside).toOption).getD default

/-! ### C2: the none text format -/

/-- C2: `add_stat_annotation` does NOT accept the `None` text format: the
`assert_is_in` validation (lines 143-147) allows only full, simple and star,
so a call identical to a valid custom-pvalue call except for
`text_format=None` raises the invalid-text-format validation error instead of
drawing a textless annotation.  (The `elif text_format is None` branch at
line 329 and the no-text consumed-top branch at lines 378-379 are dead
code.) -/
theorem c2_none_format_rejected :
    addStatAnnot inpNoneFmt = Except.error AnnErr.invalidTextFormat := by decide

/-! ### C5: the concrete placement scenario -/

/-- C5: with boxes at x=0 (max 10) and x=1 (max 12), one pair spanning them,
no prior annotations, offset-to-box fraction 0.06, line-height fraction 0.02
and a y-range of 10, the placement engine computes bracket y = 12.6, height
0.2, and consumed top 12.8 when no text is drawn. -/
theorem c5_single_pair_bracket_values :
    (annotStep ((1/20) * 10) ((3/50) * 10) ((1/50) * 10) false (fun _ b => b)
        [⟨0, some 10, 0⟩, ⟨1, some 12, 0⟩]
        ⟨⟨"A", 0, [10], some 10, 0⟩, ⟨"B", 1, [12], some 12, 1⟩, 0⟩).map
      (fun so => (so.y, so.yTop)) = Except.ok ((63/5 : ℚ), (64/5 : ℚ)) := by
  decide

/-! ### C10: the 1.1 seed of the monotonicity assertion -/

/-- C10: any threshold table containing a cutoff of at least 1.1 makes
`pval_annotation_text` fail its monotonicity assertion, because the check is
seeded with the upper bound 1.1 before the first (largest) cutoff is
visited. -/
theorem c10_assert_on_large_threshold (p : ℚ) (suffix : String)
    (th : List (ℚ × String)) (hbig : ∃ t ∈ th, (11/10 : ℚ) ≤ t.1) :
    pvalAnnotationText p suffix th = Except.error AnnErr.thresholdsNotMonotonic := by
  obtain ⟨t, ht, hge⟩ := hbig
  have hts : t ∈ sortByKey (fun t => -t.1) th := (mem_sortByKey _ t th).mpr ht
  cases hsort : sortByKey (fun t => -t.1) th with
  | nil => rw [hsort] at hts; simp at hts
  | cons a rest =>
    have hpw := pairwise_le_sortByKey (fun t => -t.1) th
    rw [hsort] at hpw hts
    have hle : t.1 ≤ a.1 := by
      rcases List.mem_cons.mp hts with rfl | hmem
      · exact le_refl _
      · have h2 := List.rel_of_pairwise_cons hpw hmem
        simp only [neg_le_neg_iff] at h2
        exact h2
    have hna : ¬ (a.1 < 11/10) := not_lt.mpr (le_trans hge hle)
    unfold pvalAnnotationText
    rw [hsort]
    simp only [pvalGo, if_neg hna]

/-- Witness for C10 at the concrete table [(1.2, x)]. -/
theorem c10_witness :
    (∃ t ∈ [((6/5 : ℚ), "x")], (11/10 : ℚ) ≤ t.1) ∧
    pvalAnnotationText (1/2) "" [((6/5 : ℚ), "x")] =
      Except.error AnnErr.thresholdsNotMonotonic :=
  ⟨by decide, c10_assert_on_large_threshold (1/2) "" _ (by decide)⟩

/-! ### C4: star-mode formatting at the extremes -/

/-- Helper for the star loop at p = 1 when every remaining cutoff is below 1:
the current annotation is never overwritten. -/
theorem pvalGo_keep (suffix : String) :
    ∀ (l : List (ℚ × String)) (last : ℚ) (cur : String),
      (∀ u ∈ l, u.1 < 1) → (∀ u ∈ l, u.1 < last) →
      l.Pairwise (fun x y => y.1 < x.1) →
      pvalGo 1 suffix last cur l = Except.ok (cur ++ suffix) := by
  intro l
  induction l with
  | nil => intro last cur _ _ _; rfl
  | cons a rest ih =>
    intro last cur h1 hlt hpw
    have ha : a.1 < last := hlt a (List.mem_cons_self a rest)
    have hnp : ¬ ((1:ℚ) ≤ a.1) := not_le.mpr (h1 a (List.mem_cons_self a rest))
    simp only [pvalGo, if_pos ha, if_neg hnp]
    exact ih a.1 cur (fun u hu => h1 u (List.mem_cons_of_mem a hu))
      (fun u hu => List.rel_of_pairwise_cons hpw hu) hpw.tail

/-- Helper for the star loop at p = 0 over a strictly descending nonempty
list of nonnegative cutoffs: the annotation is overwritten at every step, so
the returned label is the one of the smallest cutoff. -/
theorem pvalGo_zero (suffix : String) :
    ∀ (l : List (ℚ × String)) (last : ℚ) (cur : String),
      l ≠ [] → (∀ u ∈ l, 0 ≤ u.1) → (∀ u ∈ l, u.1 < last) →
      l.Pairwise (fun x y => y.1 < x.1) →
      ∃ t, t ∈ l ∧ (∀ u ∈ l, t.1 ≤ u.1) ∧
        pvalGo 0 suffix last cur l = Except.ok (t.2 ++ suffix) := by
  intro l
  induction l with
  | nil => intro last cur h _ _ _; exact absurd rfl h
  | cons a rest ih =>
    intro last cur _ h0 hlt hpw
    have ha : a.1 < last := hlt a (List.mem_cons_self a rest)
    have hpa : (0:ℚ) ≤ a.1 := h0 a (List.mem_cons_self a rest)
    cases rest with
    | nil =>
      refine ⟨a, List.mem_cons_self a [], ?_, ?_⟩
      · intro u hu
        rcases List.mem_cons.mp hu with rfl | hu
        · exact le_refl _
        · simp at hu
      · simp only [pvalGo, if_pos ha, if_pos hpa]
    | cons b rest2 =>
      obtain ⟨t, htmem, htmin, hres⟩ := ih a.1 a.2 (by simp)
        (fun u hu => h0 u (List.mem_cons_of_mem a hu))
        (fun u hu => List.rel_of_pairwise_cons hpw hu) hpw.tail
      refine ⟨t, List.mem_cons_of_mem a htmem, ?_, ?_⟩
      · intro u hu
        rcases List.mem_cons.mp hu with rfl | hu
        · exact le_of_lt (List.rel_of_pairwise_cons hpw htmem)
        · exact htmin u hu
      · simp only [pvalGo, if_pos ha, if_pos hpa]
        exact hres

/-- C4 (amended): for a nonempty threshold table with pairwise-distinct
cutoffs (strictly monotonically decreasing once sorted descending), all lying
in [0, 1], star-mode formatting with empty significance suffix maps p = 0 to
the label of the smallest (strictest) cutoff, and p = 1 to the label of the
largest (loosest) cutoff when 1 is at most that cutoff (necessarily equal to
1 here) and to the empty string otherwise.  Without the upper bound 1 on the
cutoffs the original claim fails: see the counterexample. -/
theorem c4_star_mode_extremes (th : List (ℚ × String))
    (hne : th ≠ [])
    (hnd : (th.map (fun t => t.1)).Nodup)
    (hlo : ∀ t ∈ th, 0 ≤ t.1) (hhi : ∀ t ∈ th, t.1 ≤ 1) :
    (∃ t, t ∈ th ∧ (∀ u ∈ th, t.1 ≤ u.1) ∧
        pvalAnnotationText 0 "" th = Except.ok t.2) ∧
    ((∃ t, t ∈ th ∧ t.1 = 1 ∧ (∀ u ∈ th, u.1 ≤ t.1) ∧
        pvalAnnotationText 1 "" th = Except.ok t.2) ∨
     ((∀ t ∈ th, t.1 < 1) ∧ pvalAnnotationText 1 "" th = Except.ok "")) := by
  have hperm := perm_sortByKey (fun t : ℚ × String => -t.1) th
  have hle := pairwise_le_sortByKey (fun t : ℚ × String => -t.1) th
  have hdesc : (sortByKey (fun t : ℚ × String => -t.1) th).Pairwise
      (fun x y => y.1 ≤ x.1) := hle.imp (fun h => by simpa using h)
  have hnds : ((sortByKey (fun t : ℚ × String => -t.1) th).map
      (fun t => t.1)).Nodup := ((hperm.map (fun t => t.1)).nodup_iff).mpr hnd
  have hnepw : (sortByKey (fun t : ℚ × String => -t.1) th).Pairwise
      (fun x y => x.1 ≠ y.1) := List.pairwise_map.mp hnds
  have hstrict : (sortByKey (fun t : ℚ × String => -t.1) th).Pairwise
      (fun x y => y.1 < x.1) :=
    (hdesc.and hnepw).imp (fun h => lt_of_le_of_ne h.1 (Ne.symm h.2))
  have hlo2 : ∀ u ∈ sortByKey (fun t : ℚ × String => -t.1) th, 0 ≤ u.1 :=
    fun u hu => hlo u (hperm.mem_iff.mp hu)
  have hhi2 : ∀ u ∈ sortByKey (fun t : ℚ × String => -t.1) th, u.1 ≤ 1 :=
    fun u hu => hhi u (hperm.mem_iff.mp hu)
  have hne2 : sortByKey (fun t : ℚ × String => -t.1) th ≠ [] := by
    intro hnil
    have hp2 : ([] : List (ℚ × String)).Perm th := hnil ▸ hperm
    exact hne hp2.symm.eq_nil
  constructor
  · obtain ⟨t, htm, htmin, hres⟩ := pvalGo_zero ""
      (sortByKey (fun t : ℚ × String => -t.1) th) (11/10) "" hne2 hlo2
      (fun u hu => lt_of_le_of_lt (hhi2 u hu) (by norm_num)) hstrict
    refine ⟨t, hperm.mem_iff.mp htm, ?_, ?_⟩
    · intro u hu
      exact htmin u (hperm.mem_iff.mpr hu)
    · rw [pvalAnnotationText, hres, String.append_empty]
  · cases hsort : sortByKey (fun t : ℚ × String => -t.1) th with
    | nil => exact absurd hsort hne2
    | cons a rest =>
      rw [hsort] at hstrict hlo2 hhi2 hdesc
      have hamem : a ∈ th :=
        hperm.mem_iff.mp (hsort ▸ List.mem_cons_self a rest)
      have hamax : ∀ u ∈ th, u.1 ≤ a.1 := by
        intro u hu
        have hu2 : u ∈ a :: rest := hsort ▸ hperm.mem_iff.mpr hu
        rcases List.mem_cons.mp hu2 with rfl | hu2
        · exact le_refl _
        · exact le_of_lt (List.rel_of_pairwise_cons hstrict hu2)
      by_cases ha1 : a.1 = 1
      · left
        refine ⟨a, hamem, ha1, hamax, ?_⟩
        rw [pvalAnnotationText, hsort]
        have hlt : a.1 < 11/10 := by rw [ha1]; norm_num
        have hp1 : (1:ℚ) ≤ a.1 := le_of_eq ha1.symm
        simp only [pvalGo, if_pos hlt, if_pos hp1]
        rw [pvalGo_keep "" rest a.1 a.2
          (fun u hu => by
            have h2 := List.rel_of_pairwise_cons hstrict hu
            rw [ha1] at h2
            exact h2)
          (fun u hu => List.rel_of_pairwise_cons hstrict hu) hstrict.tail]
        rw [String.append_empty]
      · right
        have hall : ∀ u ∈ a :: rest, u.1 < 1 := by
          intro u hu
          rcases List.mem_cons.mp hu with heq | hu2
          · rw [heq]
            exact lt_of_le_of_ne (hhi2 a (List.mem_cons_self a rest)) ha1
          · exact lt_of_lt_of_le (List.rel_of_pairwise_cons hstrict hu2)
              (hhi2 a (List.mem_cons_self a rest))
        constructor
        · intro t ht
          exact hall t (hsort ▸ hperm.mem_iff.mpr ht)
        · rw [pvalAnnotationText, hsort]
          rw [pvalGo_keep "" (a :: rest) (11/10) "" hall
            (fun u hu => lt_of_le_of_lt (hhi2 u hu) (by norm_num)) hstrict]
          decide

/-- C4 counterexample: the table [(1.05, a), (1, b)] is strictly decreasing
once sorted descending and passes the assertion (1.05 < 1.1), and 1 is at
most its largest cutoff 1.05 — yet star-mode formatting of p = 1 returns the
label b of the 1 cutoff, not the label a of the largest cutoff, because the
overwriting loop visits the stricter 1 cutoff after the looser 1.05. -/
theorem c4_counterexample :
    ((List.map (fun t => t.1) [((21/20 : ℚ), "a"), (1, "b")]).Nodup ∧
      (1 : ℚ) ≤ 21/20 ∧
      pvalAnnotationText 1 "" [((21/20 : ℚ), "a"), (1, "b")] = Except.ok "b") ∧
    "b" ≠ "a" :=
  ⟨⟨by decide, by decide, by decide⟩, by decide⟩

/-- Witness for C4 at the default star thresholds. -/
theorem c4_witness :
    (defaultThresholds TextFormat.star ≠ [] ∧
      ((defaultThresholds TextFormat.star).map (fun t => t.1)).Nodup ∧
      (∀ t ∈ defaultThresholds TextFormat.star, 0 ≤ t.1) ∧
      (∀ t ∈ defaultThresholds TextFormat.star, t.1 ≤ 1)) ∧
    ((∃ t, t ∈ defaultThresholds TextFormat.star ∧
        (∀ u ∈ defaultThresholds TextFormat.star, t.1 ≤ u.1) ∧
        pvalAnnotationText 0 "" (defaultThresholds TextFormat.star) =
          Except.ok t.2) ∧
     ((∃ t, t ∈ defaultThresholds TextFormat.star ∧ t.1 = 1 ∧
        (∀ u ∈ defaultThresholds TextFormat.star, u.1 ≤ t.1) ∧
        pvalAnnotationText 1 "" (defaultThresholds TextFormat.star) =
          Except.ok t.2) ∨
      ((∀ t ∈ defaultThresholds TextFormat.star, t.1 < 1) ∧
        pvalAnnotationText 1 "" (defaultThresholds TextFormat.star) =
          Except.ok ""))) :=
  ⟨⟨by decide, by decide, by decide, by decide⟩,
    c4_star_mode_extremes (defaultThresholds TextFormat.star)
      (by decide) (by decide) (by decide) (by decide)⟩

/-! ### Inversion of a normally-returning call -/

/-- Inversion: a normally-returning call passed validation, resolved its
pairs, ran the annotation loop, and produced its output fields from those
stages. -/
theorem addStatAnnot_ok (inp : AnnotInput) (out : AnnotOutput)
    (hok : addStatAnnot inp = Except.ok out) :
    validateArgs inp = Except.ok () ∧
    ∃ pairs run ysm,
      preparePairs inp = Except.ok pairs ∧
      runCore inp (sortPairs pairs) = Except.ok run ∧
      listMax (runningMaxs (run.2.1.map (fun a => a.2))) = some ysm ∧
      out = { results := resultsOf inp (sortPairs pairs),
              draws := run.2.2,
              finalYlim := finalYlimOf inp ysm,
              annots := run.2.1,
              sortedPairs := sortPairs pairs,
              states := initStack inp.loc inp.ylim.2 (mkBoxStructs inp.geom)
                          :: run.1 } := by
  unfold addStatAnnot at hok
  split at hok
  · simp at hok
  · rename_i u hv
    split at hok
    · simp at hok
    · rename_i pairs hp
      split at hok
      · simp at hok
      · rename_i run hr
        split at hok
        · simp at hok
        · rename_i ysm hm
          cases u
          simp only [Except.ok.injEq] at hok
          exact ⟨hv, pairs, run, ysm, hp, hr, hm, hok.symm⟩

/-! ### C3: final y-limits versus the annotations -/

/-- C3 (amended): for a normally-returning `inside` call whose maximum
consumed top is nonnegative, the final upper y-limit is at least that
maximum, i.e. the axis is extended to fit all annotations.  For `outside`
calls the claim fails: the original limits are restored (see the
counterexample); for a negative maximum consumed top the 1.03 scaling can
undershoot it. -/
theorem c3_inside_upper_fits (inp : AnnotInput) (out : AnnotOutput)
    (hok : addStatAnnot inp = Except.ok out) (hloc : inp.loc = Loc.inside)
    (m : ℚ) (hm : listMax (out.annots.map (fun a => a.2)) = some m)
    (h0 : 0 ≤ m) : m ≤ out.finalYlim.2 := by
  obtain ⟨hv, pairs, run, ysm, hp, hr, hys, hout⟩ := addStatAnnot_ok inp out hok
  subst hout
  dsimp only at hm ⊢
  rw [listMax_runningMaxs, hm] at hys
  cases hys
  unfold finalYlimOf
  rw [hloc]
  dsimp only
  exact le_trans (by linarith) (le_max_left ((103/100) * m) inp.ylim.2)

/-- C3 counterexample: the concrete outside-location call returns normally
with maximum consumed top 10.5, but its final upper y-limit is the original
10: the axis is not extended to fit the annotation drawn outside. -/
theorem c3_counterexample :
    addStatAnnot inpOutside = Except.ok outOutside ∧
    listMax (outOutside.annots.map (fun a => a.2)) = some (21/2) ∧
    ¬ ((21/2 : ℚ) ≤ outOutside.finalYlim.2) :=
  ⟨by decide, by decide, by decide⟩

/-- Witness for C3 on the concrete inside call. -/
theorem c3_witness :
    (addStatAnnot inpW = Except.ok outW ∧ inpW.loc = Loc.inside ∧
      listMax (outW.annots.map (fun a => a.2)) = some (7/2) ∧ (0:ℚ) ≤ 7/2) ∧
    (7/2 : ℚ) ≤ outW.finalYlim.2 :=
  ⟨⟨by decide, rfl, by decide, by decide⟩,
    c3_inside_upper_fits inpW outW (by decide) rfl (7/2) (by decide) (by decide)⟩

/-! ### C9: invalid pairs abort before drawing -/

/-- If some requested pair names a box absent from the resolved geometry,
pair resolution raises the invalid-pair error. -/
theorem buildPairs_invalid (boxes : List BoxStruct) :
    ∀ (reqs : List (String × String)) (i : ℕ),
      (∃ pr ∈ reqs,
        (∀ b ∈ boxes, ¬ b.name = pr.1) ∨ (∀ b ∈ boxes, ¬ b.name = pr.2)) →
      buildPairs boxes reqs i = Except.error AnnErr.invalidBoxPair := by
  intro reqs
  induction reqs with
  | nil =>
    intro i h
    obtain ⟨pr, hm, _⟩ := h
    simp at hm
  | cons q rest ih =>
    intro i h
    cases hf1 : boxes.find? (fun s => decide (s.name = q.1)) with
    | none => simp only [buildPairs, hf1]
    | some s1 =>
      cases hf2 : boxes.find? (fun s => decide (s.name = q.2)) with
      | none => simp only [buildPairs, hf1, hf2]
      | some s2 =>
        have hbad : ∃ pr ∈ rest,
            (∀ b ∈ boxes, ¬ b.name = pr.1) ∨ (∀ b ∈ boxes, ¬ b.name = pr.2) := by
          obtain ⟨pr, hm, hcase⟩ := h
          rcases List.mem_cons.mp hm with heq | hm2
          · exfalso
            rcases hcase with hc | hc
            · have hmem := List.mem_of_find?_eq_some hf1
              have hp1 := List.find?_some hf1
              rw [heq] at hc
              exact hc s1 hmem (by simpa using hp1)
            · have hmem := List.mem_of_find?_eq_some hf2
              have hp2 := List.find?_some hf2
              rw [heq] at hc
              exact hc s2 hmem (by simpa using hp2)
          · exact ⟨pr, hm2, hcase⟩
        simp only [buildPairs, hf1, hf2, ih (i+1) hbad]

/-- C9: when the earlier argument validation passes and some requested pair
names a group absent from the resolved geometry, the call raises the
invalid-pair error; the error return carries no draw commands — drawing
happens only in the annotation loop, which is never reached. -/
theorem c9_invalid_pair_aborts (inp : AnnotInput)
    (hv : validateArgs inp = Except.ok ())
    (hbad : ∃ pr ∈ inp.boxPairs,
      (∀ b ∈ mkBoxStructs inp.geom, ¬ b.name = pr.1) ∨
      (∀ b ∈ mkBoxStructs inp.geom, ¬ b.name = pr.2)) :
    addStatAnnot inp = Except.error AnnErr.invalidBoxPair := by
  have hbp : preparePairs inp = Except.error AnnErr.invalidBoxPair :=
    buildPairs_invalid (mkBoxStructs inp.geom) inp.boxPairs 0 hbad
  simp only [addStatAnnot, hv, hbp]

/-- Witness for C9 on the concrete call requesting the unknown group Z. -/
theorem c9_witness :
    (validateArgs inpBadPair = Except.ok () ∧
      (∃ pr ∈ inpBadPair.boxPairs,
        (∀ b ∈ mkBoxStructs inpBadPair.geom, ¬ b.name = pr.1) ∨
        (∀ b ∈ mkBoxStructs inpBadPair.geom, ¬ b.name = pr.2))) ∧
    addStatAnnot inpBadPair = Except.error AnnErr.invalidBoxPair :=
  ⟨⟨by decide, by decide⟩,
    c9_invalid_pair_aborts inpBadPair (by decide) (by decide)⟩

/-! ### C1 and C8: result list structure and processing order -/

/-- The request indices attached by pair resolution are sequential. -/
theorem buildPairs_map_idx (boxes : List BoxStruct) :
    ∀ (reqs : List (String × String)) (i : ℕ) (l : List PairStruct),
      buildPairs boxes reqs i = Except.ok l →
      l.map (fun p => p.idx) = List.range' i reqs.length := by
  intro reqs
  induction reqs with
  | nil =>
    intro i l h
    simp only [buildPairs, Except.ok.injEq] at h
    subst h
    rfl
  | cons q rest ih =>
    intro i l h
    cases hf1 : boxes.find? (fun s => decide (s.name = q.1)) with
    | none => rw [buildPairs, hf1] at h; simp at h
    | some s1 =>
      cases hf2 : boxes.find? (fun s => decide (s.name = q.2)) with
      | none => rw [buildPairs, hf1, hf2] at h; simp at h
      | some s2 =>
        rw [buildPairs, hf1, hf2] at h
        cases hrest : buildPairs boxes rest (i + 1) with
        | error e => rw [hrest] at h; simp at h
        | ok l2 =>
          rw [hrest] at h
          simp only [Except.ok.injEq] at h
          subst h
          have hidx : (if s1.x ≤ s2.x then PairStruct.mk s1 s2 i
              else PairStruct.mk s2 s1 i).idx = i := by
            split <;> rfl
          simp only [List.map_cons, hidx, ih (i + 1) l2 hrest,
            List.length_cons, List.range'_succ]

/-- Pair resolution preserves the number of requested pairs. -/
theorem buildPairs_length (boxes : List BoxStruct)
    (reqs : List (String × String)) (i : ℕ) (l : List PairStruct)
    (h : buildPairs boxes reqs i = Except.ok l) : l.length = reqs.length := by
  have hm := buildPairs_map_idx boxes reqs i l h
  have := congrArg List.length hm
  simpa using this

/-- Each resolved pair is the (possibly reorientated) requested pair at its
request index. -/
theorem buildPairs_names (boxes : List BoxStruct) :
    ∀ (reqs : List (String × String)) (i : ℕ) (l : List PairStruct),
      buildPairs boxes reqs i = Except.ok l →
      ∀ p ∈ l, i ≤ p.idx ∧ ∃ pr, reqs.get? (p.idx - i) = some pr ∧
        ((p.left.name = pr.1 ∧ p.right.name = pr.2) ∨
         (p.left.name = pr.2 ∧ p.right.name = pr.1)) := by
  intro reqs
  induction reqs with
  | nil =>
    intro i l h p hp
    simp only [buildPairs, Except.ok.injEq] at h
    subst h
    simp at hp
  | cons q rest ih =>
    intro i l h p hp
    cases hf1 : boxes.find? (fun s => decide (s.name = q.1)) with
    | none => rw [buildPairs, hf1] at h; simp at h
    | some s1 =>
      cases hf2 : boxes.find? (fun s => decide (s.name = q.2)) with
      | none => rw [buildPairs, hf1, hf2] at h; simp at h
      | some s2 =>
        rw [buildPairs, hf1, hf2] at h
        cases hrest : buildPairs boxes rest (i + 1) with
        | error e => rw [hrest] at h; simp at h
        | ok l2 =>
          rw [hrest] at h
          simp only [Except.ok.injEq] at h
          subst h
          have hn1 : s1.name = q.1 := by simpa using List.find?_some hf1
          have hn2 : s2.name = q.2 := by simpa using List.find?_some hf2
          rcases List.mem_cons.mp hp with heq | hp2
          · subst heq
            refine ⟨?_, q, ?_, ?_⟩
            · have : (if s1.x ≤ s2.x then PairStruct.mk s1 s2 i
                  else PairStruct.mk s2 s1 i).idx = i := by split <;> rfl
              rw [this]
            · have : (if s1.x ≤ s2.x then PairStruct.mk s1 s2 i
                  else PairStruct.mk s2 s1 i).idx = i := by split <;> rfl
              rw [this, Nat.sub_self]
              rfl
            · split
              · exact Or.inl ⟨hn1, hn2⟩
              · exact Or.inr ⟨hn2, hn1⟩
          · obtain ⟨hge, pr, hget, hnames⟩ := ih (i + 1) l2 hrest p hp2
            refine ⟨le_trans (Nat.le_succ i) hge, pr, ?_, hnames⟩
            have harith : p.idx - i = (p.idx - (i + 1)) + 1 := by omega
            rw [harith]
            simpa using hget

/-- The resolved pairs are strictly increasing in their request index. -/
theorem buildPairs_pairwise_idx (boxes : List BoxStruct)
    (reqs : List (String × String)) (i : ℕ) (l : List PairStruct)
    (h : buildPairs boxes reqs i = Except.ok l) :
    l.Pairwise (fun a b => a.idx < b.idx) := by
  have hm := buildPairs_map_idx boxes reqs i l h
  have hpw : (l.map (fun p => p.idx)).Pairwise (fun a b => a < b) := by
    rw [hm]
    exact List.pairwise_lt_range' i reqs.length
  exact List.pairwise_map.mp hpw

theorem markSignif_length (nm : String) :
    ∀ (rs : List StatResult) (bs : List Bool),
      (markSignif nm rs bs).length = rs.length := by
  intro rs
  induction rs with
  | nil => intro bs; cases bs <;> rfl
  | cons r rs ih =>
    intro bs
    cases bs with
    | nil => rfl
    | cons b bs => simp [markSignif, ih bs]

theorem markSignif_boxes (nm : String) :
    ∀ (rs : List StatResult) (bs : List Bool),
      (markSignif nm rs bs).map (fun r => (r.box1, r.box2)) =
        rs.map (fun r => (r.box1, r.box2)) := by
  intro rs
  induction rs with
  | nil => intro bs; cases bs <;> rfl
  | cons r rs ih =>
    intro bs
    cases bs with
    | nil => rfl
    | cons b bs => simp [markSignif, ih bs]

theorem resultsOf_length (inp : AnnotInput) (sorted : List PairStruct) :
    (resultsOf inp sorted).length = sorted.length := by
  unfold resultsOf applyBatchCorrection
  cases inp.correction with
  | none => simp
  | some c => simp [markSignif_length]

/-- The returned results carry, in order, exactly the oriented box-name pairs
of the processed pair structs. -/
theorem resultsOf_boxes (inp : AnnotInput) (sorted : List PairStruct) :
    (resultsOf inp sorted).map (fun r => (r.box1, r.box2)) =
      sorted.map (fun p => (p.left.name, p.right.name)) := by
  unfold resultsOf applyBatchCorrection
  have hcr : ∀ p : PairStruct,
      ((computeResult inp p).box1, (computeResult inp p).box2) =
        (p.left.name, p.right.name) := by
    intro p
    unfold computeResult
    split <;> rfl
  cases inp.correction with
  | none => simp [List.map_map, Function.comp, hcr]
  | some c => simp [markSignif_boxes, List.map_map, Function.comp, hcr]

/-- C1 (amended): a normally-returning call yields exactly one result per
requested pair, but ordered by the processing order — non-decreasing
between-box x-distance with ties in original request order — rather than by
the original request order: the i-th returned result is the result of the
i-th processed (distance-sorted) pair.  Conjuncts: the lengths agree, the
processed pairs carry each request index exactly once, the i-th result's box
names are those of the i-th processed pair, each processed pair resolves the
requested pair at its request index (up to orientation), and the processed
distances are non-decreasing. -/
theorem c1_results_order (inp : AnnotInput) (out : AnnotOutput)
    (hok : addStatAnnot inp = Except.ok out) :
    out.results.length = inp.boxPairs.length ∧
    (out.sortedPairs.map (fun p => p.idx)).Perm
      (List.range inp.boxPairs.length) ∧
    out.results.map (fun r => (r.box1, r.box2)) =
      out.sortedPairs.map (fun p => (p.left.name, p.right.name)) ∧
    (∀ p ∈ out.sortedPairs, ∃ pr, inp.boxPairs.get? p.idx = some pr ∧
      ((p.left.name = pr.1 ∧ p.right.name = pr.2) ∨
       (p.left.name = pr.2 ∧ p.right.name = pr.1))) ∧
    out.sortedPairs.Pairwise (fun a b =>
      |a.right.x - a.left.x| ≤ |b.right.x - b.left.x|) := by
  obtain ⟨hv, pairs, run, ysm, hp, hr, hys, hout⟩ := addStatAnnot_ok inp out hok
  subst hout
  dsimp only
  have hperm : (sortPairs pairs).Perm pairs := perm_sortByKey _ pairs
  have hlen : pairs.length = inp.boxPairs.length :=
    buildPairs_length _ _ _ _ hp
  refine ⟨?_, ?_, ?_, ?_, ?_⟩
  · rw [resultsOf_length, hperm.length_eq, hlen]
  · have hm := buildPairs_map_idx _ _ _ _ hp
    have : (pairs.map (fun p => p.idx)).Perm
        (List.range inp.boxPairs.length) := by
      rw [hm, List.range_eq_range']
    exact (hperm.map (fun p => p.idx)).trans this
  · exact resultsOf_boxes inp (sortPairs pairs)
  · intro p hps
    have hpm : p ∈ pairs := hperm.mem_iff.mp hps
    obtain ⟨_, pr, hget, hnames⟩ := buildPairs_names _ _ _ _ hp p hpm
    exact ⟨pr, by simpa using hget, hnames⟩
  · exact pairwise_le_sortByKey _ pairs

/-- C1 counterexample: for the concrete call requesting pairs
[(A,C), (B,C)] with custom p-values [0.1, 0.9], the returned list starts
with the (B,C) result (p-value 0.9 = the one requested for pair index 1):
the i-th returned result is not the result of the i-th requested pair. -/
theorem c1_counterexample :
    addStatAnnot inpW = Except.ok outW ∧
    inpW.boxPairs = [("A", "C"), ("B", "C")] ∧
    outW.results.map (fun r => (r.box1, r.box2, r.pval)) =
      [("B", "C", (9/10 : ℚ)), ("A", "C", (1/10 : ℚ))] ∧
    outW.results.map (fun r => (r.box1, r.box2, r.pval)) ≠
      [("A", "C", (1/10 : ℚ)), ("B", "C", (9/10 : ℚ))] :=
  ⟨by decide, by decide, by decide, by decide⟩

/-- Witness for C1 on the concrete call. -/
theorem c1_witness :
    addStatAnnot inpW = Except.ok outW ∧
    (outW.results.length = inpW.boxPairs.length ∧
      (outW.sortedPairs.map (fun p => p.idx)).Perm
        (List.range inpW.boxPairs.length) ∧
      outW.results.map (fun r => (r.box1, r.box2)) =
        outW.sortedPairs.map (fun p => (p.left.name, p.right.name)) ∧
      (∀ p ∈ outW.sortedPairs, ∃ pr, inpW.boxPairs.get? p.idx = some pr ∧
        ((p.left.name = pr.1 ∧ p.right.name = pr.2) ∨
         (p.left.name = pr.2 ∧ p.right.name = pr.1))) ∧
      outW.sortedPairs.Pairwise (fun a b =>
        |a.right.x - a.left.x| ≤ |b.right.x - b.left.x|)) :=
  ⟨by decide, c1_results_order inpW outW (by decide)⟩

/-- C8: the pairs are processed in non-decreasing order of the absolute
x-distance between their boxes, and pairs at equal distance keep their
original request order (stability of the sort). -/
theorem c8_processing_order (inp : AnnotInput) (out : AnnotOutput)
    (hok : addStatAnnot inp = Except.ok out) :
    out.sortedPairs.Pairwise (fun a b =>
      |a.right.x - a.left.x| < |b.right.x - b.left.x| ∨
      (|a.right.x - a.left.x| = |b.right.x - b.left.x| ∧ a.idx < b.idx)) := by
  obtain ⟨hv, pairs, run, ysm, hp, hr, hys, hout⟩ := addStatAnnot_ok inp out hok
  subst hout
  dsimp only
  exact pairwise_lex_sortByKey _ (fun p => p.idx) pairs
    (buildPairs_pairwise_idx _ _ _ _ hp)

/-- Witness for C8 on the concrete call: a tie is present (both processed
pairs have distinct distances 1 and 2, ordered increasingly). -/
theorem c8_witness :
    addStatAnnot inpW = Except.ok outW ∧
    outW.sortedPairs.Pairwise (fun a b =>
      |a.right.x - a.left.x| < |b.right.x - b.left.x| ∨
      (|a.right.x - a.left.x| = |b.right.x - b.left.x| ∧ a.idx < b.idx)) :=
  ⟨by decide, c8_processing_order inpW outW (by decide)⟩

/-! ### C6 and C7: occupancy-stack invariants

The key predicates: `entryLe` relates one stack column before and after an
update (position fixed, `topY` only introduced or raised); `stackWF` says the
stack's x-positions are strictly increasing (the source sorts the boxes by
x-position and the spec takes positions to be unique); `pairFits` says a pair
struct indexes the stack consistently, which the pipeline guarantees by
construction. -/

/-- Pointwise evolution of one stack column: the x-position is unchanged and
a present `topY` remains present and does not decrease. -/
def entryLe (a b : StackEntry) : Prop :=
  a.x = b.x ∧ ∀ v : ℚ, a.topY = some v → ∃ w : ℚ, b.topY = some w ∧ v ≤ w

theorem entryLe_refl (a : StackEntry) : entryLe a a :=
  ⟨rfl, fun v hv => ⟨v, hv, le_refl v⟩⟩

theorem entryLe_trans {a b c : StackEntry} (hab : entryLe a b)
    (hbc : entryLe b c) : entryLe a c := by
  refine ⟨hab.1.trans hbc.1, ?_⟩
  intro v hv
  obtain ⟨w, hw, hvw⟩ := hab.2 v hv
  obtain ⟨u, hu, hwu⟩ := hbc.2 w hw
  exact ⟨u, hu, le_trans hvw hwu⟩

theorem forall₂_entryLe_refl (l : List StackEntry) :
    List.Forall₂ entryLe l l := by
  induction l with
  | nil => exact List.Forall₂.nil
  | cons a l ih => exact List.Forall₂.cons (entryLe_refl a) ih

theorem forall₂_entryLe_trans {a b c : List StackEntry}
    (hab : List.Forall₂ entryLe a b) (hbc : List.Forall₂ entryLe b c) :
    List.Forall₂ entryLe a c := by
  induction hab generalizing c with
  | nil => cases hbc; exact List.Forall₂.nil
  | cons h t ih =>
    cases hbc with
    | cons h2 t2 => exact List.Forall₂.cons (entryLe_trans h h2) (ih t2)

/-- The stack's x-positions are strictly increasing. -/
def stackWF (st : List StackEntry) : Prop :=
  st.Pairwise (fun a b => a.x < b.x)

/-- A pair struct indexes the stack consistently: the members are oriented
and their `xi` indices point at stack columns carrying their x-positions. -/
def pairFits (st : List StackEntry) (p : PairStruct) : Prop :=
  p.left.x ≤ p.right.x ∧
  ∃ (h1 : p.left.xi < st.length) (h2 : p.right.xi < st.length),
    (st.get ⟨p.left.xi, h1⟩).x = p.left.x ∧
    (st.get ⟨p.right.xi, h2⟩).x = p.right.x

/-- The x-range of a pair, as a proposition on stack columns. -/
def inRangeP (p : PairStruct) (e : StackEntry) : Prop :=
  p.left.x ≤ e.x ∧ e.x ≤ p.right.x

theorem inRB_iff (x1 x2 : ℚ) (e : StackEntry) :
    inRB x1 x2 e = true ↔ (x1 ≤ e.x ∧ e.x ≤ x2) := by
  simp [inRB]

/-- On a strictly x-sorted stack, filtering by `x1 ≤ x` is dropping the
prefix before the column at `x1`. -/
theorem filter_ge_eq_drop (x1 : ℚ) :
    ∀ (st : List StackEntry) (i1 : ℕ), stackWF st →
      ∀ h1 : i1 < st.length, (st.get ⟨i1, h1⟩).x = x1 →
      st.filter (fun e => decide (x1 ≤ e.x)) = st.drop i1 := by
  intro st
  induction st with
  | nil => intro i1 _ h1; exact absurd h1 (by simp)
  | cons e rest ih =>
    intro i1 hwf h1 hx1
    cases i1 with
    | zero =>
      simp only [List.get] at hx1
      rw [List.drop_zero]
      rw [List.filter_eq_self]
      intro a ha
      rcases List.mem_cons.mp ha with heq | ha2
      · rw [heq, hx1]
        simp
      · have : e.x < a.x := List.rel_of_pairwise_cons hwf ha2
        rw [hx1] at this
        simpa using le_of_lt this
    | succ k =>
      have hk : k < rest.length := by simpa using h1
      have hxk : (rest.get ⟨k, hk⟩).x = x1 := by simpa using hx1
      have hlt : e.x < x1 := by
        have := List.rel_of_pairwise_cons hwf (List.get_mem rest k hk)
        rw [hxk] at this
        exact this
      have hne : ¬ (x1 ≤ e.x) := not_le.mpr hlt
      rw [List.drop_succ_cons]
      rw [List.filter_cons_of_neg (by simpa using hne)]
      exact ih k hwf.tail hk hxk

/-- On a strictly x-sorted stack, filtering by `x ≤ x2` is taking the prefix
up to the column at `x2`. -/
theorem filter_le_eq_take (x2 : ℚ) :
    ∀ (st : List StackEntry) (i2 : ℕ), stackWF st →
      ∀ h2 : i2 < st.length, (st.get ⟨i2, h2⟩).x = x2 →
      st.filter (fun e => decide (e.x ≤ x2)) = st.take (i2 + 1) := by
  intro st
  induction st with
  | nil => intro i2 _ h2; exact absurd h2 (by simp)
  | cons e rest ih =>
    intro i2 hwf h2 hx2
    cases i2 with
    | zero =>
      simp only [List.get] at hx2
      rw [List.take_succ_cons, List.take_zero]
      rw [List.filter_cons_of_pos (by rw [hx2]; simp)]
      rw [List.filter_eq_nil_iff.mpr]
      intro a ha
      have : e.x < a.x := List.rel_of_pairwise_cons hwf ha
      rw [hx2] at this
      simpa using not_le.mpr this
    | succ k =>
      have hk : k < rest.length := by simpa using h2
      have hxk : (rest.get ⟨k, hk⟩).x = x2 := by simpa using hx2
      have hlt : e.x < x2 := by
        have := List.rel_of_pairwise_cons hwf (List.get_mem rest k hk)
        rw [hxk] at this
        exact this
      rw [List.take_succ_cons]
      rw [List.filter_cons_of_pos (by simpa using le_of_lt hlt)]
      rw [ih k hwf.tail hk hxk]

/-- On a strictly x-sorted stack, the x-range mask of an oriented pair
selects exactly the contiguous slice of columns between the pair's two
indices; this is what makes the source's `xi1 + nanargmax(...)` index
arithmetic correct. -/
theorem filter_range_eq (st : List StackEntry) (x1 x2 : ℚ) (i1 i2 : ℕ)
    (hwf : stackWF st) (h1 : i1 < st.length) (h2 : i2 < st.length)
    (hx1 : (st.get ⟨i1, h1⟩).x = x1) (hx2 : (st.get ⟨i2, h2⟩).x = x2)
    (hxle : x1 ≤ x2) :
    st.filter (inRB x1 x2) = (st.drop i1).take (i2 + 1 - i1) := by
  have hpg := List.pairwise_iff_get.mp hwf
  have hile : i1 ≤ i2 := by
    by_contra hgt
    have hlt : i2 < i1 := Nat.lt_of_not_le hgt
    have := hpg ⟨i2, h2⟩ ⟨i1, h1⟩ hlt
    rw [hx1, hx2] at this
    exact absurd hxle (not_le.mpr this)
  have hsplit : st.filter (inRB x1 x2) =
      (st.filter (fun e => decide (x1 ≤ e.x))).filter
        (fun e => decide (e.x ≤ x2)) := by
    rw [List.filter_filter]
    apply List.filter_congr
    intro e _
    simp [inRB, Bool.and_comm]
  rw [hsplit, filter_ge_eq_drop x1 st i1 hwf h1 hx1]
  have hwfd : stackWF (st.drop i1) := hwf.drop
  have hlen : i2 - i1 < (st.drop i1).length := by
    simp only [List.length_drop]
    omega
  have hxd : ((st.drop i1).get ⟨i2 - i1, hlen⟩).x = x2 := by
    have hgd : (st.drop i1).get ⟨i2 - i1, hlen⟩ = st.get ⟨i2, h2⟩ := by
      have hdd := List.getElem_drop st (i := i1) (j := i2 - i1)
        (h := by simpa using hlen)
      simp only [List.get_eq_getElem]
      rw [hdd]
      congr 1
      omega
    rw [hgd, hx2]
  have := filter_le_eq_take x2 (st.drop i1) (i2 - i1) hwfd hlen hxd
  rw [this]
  congr 1
  omega

/-- The maximum query of the placement engine, resolved: under the stack
invariants, the global index `xi1 + nanargmax(selection)` points inside the
stack at the column holding the selection's maximum. -/
theorem query_index_topY (st : List StackEntry) (p : PairStruct)
    (hwf : stackWF st) (hfit : pairFits st p) (rel : ℕ) (m : ℚ)
    (hq : nanargmax ((st.filter (inRB p.left.x p.right.x)).map
        (fun e => e.topY)) = some (rel, m)) :
    ∃ hlt : p.left.xi + rel < st.length,
      (st.get ⟨p.left.xi + rel, hlt⟩).topY = some m := by
  obtain ⟨hxle, h1, h2, hx1, hx2⟩ := hfit
  rw [filter_range_eq st p.left.x p.right.x p.left.xi p.right.xi hwf h1 h2
    hx1 hx2 hxle] at hq
  obtain ⟨hr, hget⟩ := nanargmax_get _ _ _ hq
  have hr2 : rel < ((st.drop p.left.xi).take (p.right.xi + 1 - p.left.xi)).length := by
    simpa using hr
  have hr3 : rel < (st.drop p.left.xi).length := by
    simp only [List.length_take] at hr2
    omega
  have hr4 : p.left.xi + rel < st.length := by
    simp only [List.length_drop] at hr3
    omega
  refine ⟨hr4, ?_⟩
  simp only [List.get_eq_getElem] at hget
  rw [List.getElem_map] at hget
  rw [List.getElem_take] at hget
  rw [List.getElem_drop] at hget
  simpa using hget

/-- Inversion of a successful placement step, exposing the query result, the
winning column and the update. -/
theorem annotStep_ok (yO yOB h : ℚ) (hasText : Bool) (oracle : ℕ → ℚ → ℚ)
    (st : List StackEntry) (p : PairStruct) (so : StepOut)
    (hstep : annotStep yO yOB h hasText oracle st p = Except.ok so) :
    ∃ (rel : ℕ) (m : ℚ) (ei : StackEntry) (ymaxR : ℚ),
      nanargmax ((st.filter (inRB p.left.x p.right.x)).map
        (fun e => e.topY)) = some (rel, m) ∧
      st.get? (p.left.xi + rel) = some ei ∧
      ei.topY = some ymaxR ∧
      so.y = ymaxR + (if ei.depth = 0 then yOB else yO) ∧
      so.yTop = (if hasText then oracle p.idx (so.y + h) else so.y + h) ∧
      so.st = bumpDepth p.left.xi p.right.xi 0
        (updateTop p.left.x p.right.x so.yTop st) := by
  unfold annotStep at hstep
  split at hstep
  · simp at hstep
  · rename_i rm hq
    split at hstep
    · simp at hstep
    · rename_i ei hgt
      split at hstep
      · simp at hstep
      · rename_i ymaxR hty
        simp only [Except.ok.injEq] at hstep
        subst hstep
        exact ⟨rm.1, rm.2, ei, ymaxR, by exact hq, hgt, hty, rfl, rfl, rfl⟩

theorem updateTop_length (x1 x2 t : ℚ) (st : List StackEntry) :
    (updateTop x1 x2 t st).length = st.length := by
  simp [updateTop]

theorem bumpDepth_length (xi1 xi2 : ℕ) :
    ∀ (j0 : ℕ) (st : List StackEntry),
      (bumpDepth xi1 xi2 j0 st).length = st.length := by
  intro j0 st
  induction st generalizing j0 with
  | nil => rfl
  | cons e rest ih => simp [bumpDepth, ih]

/-- The depth bump leaves positions and consumed tops untouched. -/
theorem bumpDepth_x_topY (xi1 xi2 : ℕ) :
    ∀ (st : List StackEntry) (j0 j : ℕ) (hj : j < st.length)
      (hj2 : j < (bumpDepth xi1 xi2 j0 st).length),
      ((bumpDepth xi1 xi2 j0 st)[j]).x = (st[j]).x ∧
      ((bumpDepth xi1 xi2 j0 st)[j]).topY = (st[j]).topY := by
  intro st
  induction st with
  | nil => intro j0 j hj; exact absurd hj (by simp)
  | cons e rest ih =>
    intro j0 j hj hj2
    cases j with
    | zero =>
      simp only [bumpDepth, List.getElem_cons_zero]
      split <;> exact ⟨rfl, rfl⟩
    | succ k =>
      have hk : k < rest.length := by simpa using hj
      have hk2 : k < (bumpDepth xi1 xi2 (j0 + 1) rest).length := by
        rw [bumpDepth_length]
        exact hk
      simpa only [bumpDepth, List.getElem_cons_succ] using
        ih (j0 + 1) k hk hk2

/-- Pointwise description of the stack update performed by one placement
step: x-positions are unchanged and `topY` becomes the consumed top on the
x-range mask. -/
theorem update_state_spec (x1 x2 t : ℚ) (xi1 xi2 : ℕ) (st : List StackEntry) :
    (bumpDepth xi1 xi2 0 (updateTop x1 x2 t st)).length = st.length ∧
    ∀ (j : ℕ) (hj : j < st.length)
      (hj2 : j < (bumpDepth xi1 xi2 0 (updateTop x1 x2 t st)).length),
      ((bumpDepth xi1 xi2 0 (updateTop x1 x2 t st))[j]).x = (st[j]).x ∧
      ((bumpDepth xi1 xi2 0 (updateTop x1 x2 t st))[j]).topY =
        (if inRB x1 x2 st[j] then some t else (st[j]).topY) := by
  have hlen1 := updateTop_length x1 x2 t st
  have hlen2 := bumpDepth_length xi1 xi2 0 (updateTop x1 x2 t st)
  refine ⟨by rw [hlen2, hlen1], ?_⟩
  intro j hj hj2
  have hju : j < (updateTop x1 x2 t st).length := by rw [hlen1]; exact hj
  obtain ⟨hx, ht⟩ := bumpDepth_x_topY xi1 xi2 (updateTop x1 x2 t st) 0 j hju hj2
  have hu : (updateTop x1 x2 t st)[j] =
      (if inRB x1 x2 st[j] then { st[j] with topY := some t } else st[j]) := by
    simp [updateTop]
  rw [hu] at hx ht
  constructor
  · rw [hx]
    split <;> rfl
  · rw [ht]
    split <;> rfl

/-- A successful step's consumed top is at least the bracket top `y + h`,
assuming the renderer contract (the measured text top is at least the text's
baseline, which sits at the bracket top). -/
theorem annotStep_yTop_ge (yO yOB h : ℚ) (hasText : Bool) (oracle : ℕ → ℚ → ℚ)
    (st : List StackEntry) (p : PairStruct) (so : StepOut)
    (hor : ∀ i b, b ≤ oracle i b)
    (hstep : annotStep yO yOB h hasText oracle st p = Except.ok so) :
    so.y + h ≤ so.yTop := by
  obtain ⟨rel, m, ei, ymaxR, hq, hgt, hty, hy, hyt, hst⟩ :=
    annotStep_ok yO yOB h hasText oracle st p so hstep
  rw [hyt]
  split
  · exact hor p.idx (so.y + h)
  · exact le_refl _

/-- The queried maximum bounds every in-range consumed top: the new bracket
base `y` is at least every `topY` present in the pair's x-range before the
step (nonnegative offsets). -/
theorem annotStep_y_ge (yO yOB h : ℚ) (hasText : Bool) (oracle : ℕ → ℚ → ℚ)
    (st : List StackEntry) (p : PairStruct) (so : StepOut)
    (hwf : stackWF st) (hfit : pairFits st p)
    (hO : 0 ≤ yO) (hOB : 0 ≤ yOB)
    (hstep : annotStep yO yOB h hasText oracle st p = Except.ok so) :
    ∀ e ∈ st, inRangeP p e → ∀ v : ℚ, e.topY = some v → v ≤ so.y := by
  obtain ⟨rel, m, ei, ymaxR, hq, hgt, hty, hy, hyt, hst⟩ :=
    annotStep_ok yO yOB h hasText oracle st p so hstep
  intro e he hrange v hv
  have hin : inRB p.left.x p.right.x e = true := (inRB_iff _ _ _).mpr hrange
  have hmemf : e ∈ st.filter (inRB p.left.x p.right.x) :=
    List.mem_filter.mpr ⟨he, hin⟩
  have hmemm : e.topY ∈ (st.filter (inRB p.left.x p.right.x)).map
      (fun e => e.topY) := List.mem_map_of_mem _ hmemf
  have hvm : v ≤ m := nanargmax_le _ _ _ hq e.topY hmemm v hv
  obtain ⟨hlt, hgetm⟩ := query_index_topY st p hwf hfit rel m hq
  have hei : ei = st.get ⟨p.left.xi + rel, hlt⟩ := by
    rw [List.get?_eq_get hlt] at hgt
    exact (Option.some.injEq _ _ ▸ hgt).symm
  have hym : ymaxR = m := by
    rw [hei, hgetm] at hty
    exact (Option.some.injEq _ _ ▸ hty.symm)
  have hoff : 0 ≤ (if ei.depth = 0 then yOB else yO) := by
    split
    · exact hOB
    · exact hO
  rw [hy, hym]
  linarith

/-- After a successful step, every stack column in the pair's x-range
carries the consumed top. -/
theorem annotStep_after_mem (yO yOB h : ℚ) (hasText : Bool)
    (oracle : ℕ → ℚ → ℚ) (st : List StackEntry) (p : PairStruct) (so : StepOut)
    (hstep : annotStep yO yOB h hasText oracle st p = Except.ok so) :
    ∀ e ∈ so.st, inRangeP p e → e.topY = some so.yTop := by
  obtain ⟨rel, m, ei, ymaxR, hq, hgt, hty, hy, hyt, hst⟩ :=
    annotStep_ok yO yOB h hasText oracle st p so hstep
  obtain ⟨hlen, hspec⟩ :=
    update_state_spec p.left.x p.right.x so.yTop p.left.xi p.right.xi st
  intro e he hrange
  obtain ⟨⟨j, hj2⟩, hget⟩ := List.mem_iff_get.mp he
  have hj2b : j < (bumpDepth p.left.xi p.right.xi 0
      (updateTop p.left.x p.right.x so.yTop st)).length := by
    rw [← hst]
    exact hj2
  have hj : j < st.length := by rw [← hlen]; exact hj2b
  obtain ⟨hx, ht⟩ := hspec j hj hj2b
  have hee : e = (bumpDepth p.left.xi p.right.xi 0
      (updateTop p.left.x p.right.x so.yTop st))[j] := by
    rw [← hget]
    simp only [List.get_eq_getElem]
    congr 1
  have hrx : (st[j]).x = e.x := by rw [hee, hx]
  have hinb : inRB p.left.x p.right.x st[j] = true := by
    rw [inRB_iff, hrx]
    exact hrange
  rw [hee, ht, hinb]
  simp

/-- One placement step only raises the occupancy stack (pointwise), leaving
x-positions fixed: the `Forall₂ entryLe` relation between the stack before
and after the step. -/
theorem annotStep_entryLe (yO yOB h : ℚ) (hasText : Bool)
    (oracle : ℕ → ℚ → ℚ) (st : List StackEntry) (p : PairStruct) (so : StepOut)
    (hwf : stackWF st) (hfit : pairFits st p)
    (hO : 0 ≤ yO) (hOB : 0 ≤ yOB) (hh : 0 ≤ h)
    (hor : ∀ i b, b ≤ oracle i b)
    (hstep : annotStep yO yOB h hasText oracle st p = Except.ok so) :
    List.Forall₂ entryLe st so.st := by
  obtain ⟨rel, m, ei, ymaxR, hq, hgt, hty, hy, hyt, hst⟩ :=
    annotStep_ok yO yOB h hasText oracle st p so hstep
  obtain ⟨hlen, hspec⟩ :=
    update_state_spec p.left.x p.right.x so.yTop p.left.xi p.right.xi st
  rw [List.forall₂_iff_get]
  refine ⟨by rw [hst, hlen], ?_⟩
  intro i h1 h2
  have h2b : i < (bumpDepth p.left.xi p.right.xi 0
      (updateTop p.left.x p.right.x so.yTop st)).length := by
    rw [← hst]; exact h2
  obtain ⟨hx, ht⟩ := hspec i h1 h2b
  have hgeteq : so.st.get ⟨i, h2⟩ = (bumpDepth p.left.xi p.right.xi 0
      (updateTop p.left.x p.right.x so.yTop st))[i] := by
    simp only [List.get_eq_getElem]
    congr 1
  constructor
  · rw [hgeteq, hx]
    simp [List.get_eq_getElem]
  · intro v hv
    rw [hgeteq, ht]
    by_cases hin : inRB p.left.x p.right.x st[i] = true
    · rw [if_pos hin]
      refine ⟨so.yTop, rfl, ?_⟩
      have hvy : v ≤ so.y := annotStep_y_ge yO yOB h hasText oracle st p so
        hwf hfit hO hOB hstep (st.get ⟨i, h1⟩) (List.get_mem st i h1)
        ((inRB_iff _ _ _).mp (by simpa using hin)) v (by simpa using hv)
      have hyy : so.y + h ≤ so.yTop :=
        annotStep_yTop_ge yO yOB h hasText oracle st p so hor hstep
      linarith
    · rw [if_neg hin]
      refine ⟨v, ?_, le_refl v⟩
      simpa using hv

/-- One placement step preserves the stack invariants. -/
theorem annotStep_preserves (yO yOB h : ℚ) (hasText : Bool)
    (oracle : ℕ → ℚ → ℚ) (st : List StackEntry) (p : PairStruct) (so : StepOut)
    (hstep : annotStep yO yOB h hasText oracle st p = Except.ok so) :
    so.st.length = st.length ∧
    (∀ (j : ℕ) (hj : j < st.length) (hj2 : j < so.st.length),
      (so.st[j]).x = (st[j]).x) ∧
    (stackWF st → stackWF so.st) ∧
    (∀ q : PairStruct, pairFits st q → pairFits so.st q) := by
  obtain ⟨rel, m, ei, ymaxR, hq, hgt, hty, hy, hyt, hst⟩ :=
    annotStep_ok yO yOB h hasText oracle st p so hstep
  obtain ⟨hlen, hspec⟩ :=
    update_state_spec p.left.x p.right.x so.yTop p.left.xi p.right.xi st
  have hlen2 : so.st.length = st.length := by rw [hst, hlen]
  have hxall : ∀ (j : ℕ) (hj : j < st.length) (hj2 : j < so.st.length),
      (so.st[j]).x = (st[j]).x := by
    intro j hj hj2
    have hj2b : j < (bumpDepth p.left.xi p.right.xi 0
        (updateTop p.left.x p.right.x so.yTop st)).length := by
      rw [← hst]; exact hj2
    obtain ⟨hx, _⟩ := hspec j hj hj2b
    have : so.st[j] = (bumpDepth p.left.xi p.right.xi 0
        (updateTop p.left.x p.right.x so.yTop st))[j] := by
      congr 1
    rw [this, hx]
  refine ⟨hlen2, hxall, ?_, ?_⟩
  · intro hwf
    rw [stackWF, List.pairwise_iff_get]
    intro i j hij
    have hi : (i : ℕ) < st.length := by rw [← hlen2]; exact i.isLt
    have hj : (j : ℕ) < st.length := by rw [← hlen2]; exact j.isLt
    have hxi := hxall i hi i.isLt
    have hxj := hxall j hj j.isLt
    simp only [List.get_eq_getElem]
    rw [hxi, hxj]
    exact List.pairwise_iff_get.mp hwf ⟨i, hi⟩ ⟨j, hj⟩ hij
  · intro q hfq
    obtain ⟨hqle, hq1, hq2, hqx1, hqx2⟩ := hfq
    refine ⟨hqle, by rw [hlen2]; exact hq1, by rw [hlen2]; exact hq2, ?_, ?_⟩
    · simp only [List.get_eq_getElem]
      rw [hxall q.left.xi hq1 (by rw [hlen2]; exact hq1)]
      simpa using hqx1
    · simp only [List.get_eq_getElem]
      rw [hxall q.right.xi hq2 (by rw [hlen2]; exact hq2)]
      simpa using hqx2

/-- Main loop invariant of the annotation loop, starting from a wellformed
stack whose pairs all fit it: the produced state sequence only raises the
occupancy stack pointwise (in the `Forall₂ entryLe` sense, pairwise over the
whole sequence), lengths and x-positions are preserved, each step's bracket
base `y` bounds every in-range `topY` of the state queried by that step, and
the state after each step carries the step's consumed top on the step's
x-range. -/
theorem annotLoop_spec (yO yOB h : ℚ) (oracle : ℕ → ℚ → ℚ)
    (textFn : PairStruct → StatResult → Except AnnErr (Option String))
    (hO : 0 ≤ yO) (hOB : 0 ≤ yOB) (hh : 0 ≤ h)
    (hor : ∀ i b, b ≤ oracle i b) :
    ∀ (prs : List (PairStruct × StatResult)) (st : List StackEntry)
      (sts : List (List StackEntry)) (ys : List (ℚ × ℚ)) (ds : List DrawCmd),
      stackWF st → (∀ pr ∈ prs, pairFits st pr.1) →
      annotLoop yO yOB h oracle textFn st prs = Except.ok (sts, ys, ds) →
      sts.length = prs.length ∧ ys.length = prs.length ∧
      (st :: sts).Pairwise (List.Forall₂ entryLe) ∧
      (∀ s ∈ sts, s.length = st.length ∧
        ∀ (q : ℕ) (hq : q < st.length) (hq2 : q < s.length),
          (s[q]).x = (st[q]).x) ∧
      (∀ (j : ℕ) (hj : j < prs.length) (hj2 : j < (st :: sts).length)
         (hjy : j < ys.length),
        ∀ e ∈ (st :: sts)[j], inRangeP (prs[j]).1 e →
          ∀ v : ℚ, e.topY = some v → v ≤ (ys[j]).1) ∧
      (∀ (j : ℕ) (hj : j < prs.length) (hj2 : j + 1 < (st :: sts).length)
         (hjy : j < ys.length),
        ∀ e ∈ (st :: sts)[j + 1], inRangeP (prs[j]).1 e →
          e.topY = some (ys[j]).2) := by
  intro prs
  induction prs with
  | nil =>
    intro st sts ys ds hwf hfits hloop
    simp only [annotLoop, Except.ok.injEq] at hloop
    have hsts : sts = [] := (congrArg Prod.fst hloop).symm
    have hys : ys = [] := (congrArg (fun t => t.2.1) hloop).symm
    subst hsts hys
    refine ⟨rfl, rfl, List.pairwise_singleton _ _, by simp, ?_, ?_⟩
    · intro j hj
      exact absurd hj (by simp)
    · intro j hj
      exact absurd hj (by simp)
  | cons pr rest ih =>
    intro st sts ys ds hwf hfits hloop
    rw [annotLoop] at hloop
    cases htf : textFn pr.1 pr.2 with
    | error e => rw [htf] at hloop; simp at hloop
    | ok textO =>
      simp only [htf] at hloop
      cases hstep : annotStep yO yOB h textO.isSome oracle st pr.1 with
      | error e => rw [hstep] at hloop; simp at hloop
      | ok so =>
        simp only [hstep] at hloop
        cases hrest : annotLoop yO yOB h oracle textFn so.st rest with
        | error e => rw [hrest] at hloop; simp at hloop
        | ok out2 =>
          simp only [hrest, Except.ok.injEq, Prod.mk.injEq] at hloop
          obtain ⟨hsts, hys, hds⟩ := hloop
          subst hsts
          subst hys
          have hfit : pairFits st pr.1 :=
            hfits pr (List.mem_cons_self pr rest)
          obtain ⟨hplen, hpx, hpwf, hpfits⟩ :=
            annotStep_preserves yO yOB h textO.isSome oracle st pr.1 so hstep
          have hwf2 : stackWF so.st := hpwf hwf
          have hfits2 : ∀ pr2 ∈ rest, pairFits so.st pr2.1 :=
            fun pr2 hm => hpfits pr2.1 (hfits pr2 (List.mem_cons_of_mem pr hm))
          obtain ⟨ihL1, ihL2, ihPW, ihX, ihBefore, ihAfter⟩ :=
            ih so.st out2.1 out2.2.1 out2.2.2 hwf2 hfits2 (by
              rw [hrest])
          have hstLe : List.Forall₂ entryLe st so.st :=
            annotStep_entryLe yO yOB h textO.isSome oracle st pr.1 so
              hwf hfit hO hOB hh hor hstep
          refine ⟨by simpa using ihL1, by simpa using ihL2, ?_, ?_, ?_, ?_⟩
          · refine List.Pairwise.cons ?_ ihPW
            intro s hs
            rcases List.mem_cons.mp hs with heq | hs2
            · rw [heq]
              exact hstLe
            · exact forall₂_entryLe_trans hstLe
                (List.rel_of_pairwise_cons ihPW hs2)
          · intro s hs
            rcases List.mem_cons.mp hs with heq | hs2
            · subst heq
              refine ⟨hplen, ?_⟩
              intro q hq hq2
              exact hpx q hq hq2
            · obtain ⟨hslen, hsx⟩ := ihX s hs2
              refine ⟨by rw [hslen, hplen], ?_⟩
              intro q hq hq2
              have hqs : q < so.st.length := by rw [hplen]; exact hq
              rw [hsx q hqs hq2, hpx q hq hqs]
          · intro j hj hj2 hjy
            cases j with
            | zero =>
              intro e he hrange v hv
              simp only [List.getElem_cons_zero] at he hrange ⊢
              exact annotStep_y_ge yO yOB h textO.isSome oracle st pr.1 so
                hwf hfit hO hOB hstep e he hrange v hv
            | succ k =>
              intro e he hrange v hv
              have hk : k < rest.length := by simpa using hj
              have hk2 : k < (so.st :: out2.1).length := by
                simpa using hj2
              have hky : k < out2.2.1.length := by simpa using hjy
              have hres := ihBefore k hk hk2 hky
              simp only [List.getElem_cons_succ] at he hrange hv ⊢
              exact hres e he hrange v hv
          · intro j hj hj2 hjy
            cases j with
            | zero =>
              intro e he hrange
              simp only [List.getElem_cons_succ, List.getElem_cons_zero]
                at he hrange ⊢
              exact annotStep_after_mem yO yOB h textO.isSome oracle st pr.1
                so hstep e he hrange
            | succ k =>
              intro e he hrange
              have hk : k < rest.length := by simpa using hj
              have hk2 : k + 1 < (so.st :: out2.1).length := by
                simpa using hj2
              have hky : k < out2.2.1.length := by simpa using hjy
              have hres := ihAfter k hk hk2 hky
              simp only [List.getElem_cons_succ] at he hrange ⊢
              exact hres e he hrange

/-! ### Wellformedness of the pipeline's initial stack and pairs -/

theorem enumMap_length {α β : Type} (f : ℕ → α → β) :
    ∀ (i : ℕ) (l : List α), (enumMap f i l).length = l.length := by
  intro i l
  induction l generalizing i with
  | nil => rfl
  | cons a rest ih => simp [enumMap, ih]

theorem enumMap_getElem {α β : Type} (f : ℕ → α → β) :
    ∀ (l : List α) (i j : ℕ) (hj : j < l.length)
      (hj2 : j < (enumMap f i l).length),
      (enumMap f i l)[j] = f (i + j) (l[j]) := by
  intro l
  induction l with
  | nil => intro i j hj; exact absurd hj (by simp)
  | cons a rest ih =>
    intro i j hj hj2
    cases j with
    | zero => simp [enumMap]
    | succ k =>
      have hk : k < rest.length := by simpa using hj
      have hk2 : k < (enumMap f (i + 1) rest).length := by
        rw [enumMap_length]
        exact hk
      simp only [enumMap, List.getElem_cons_succ]
      rw [ih (i + 1) k hk hk2]
      congr 1
      omega

theorem mkBoxStructs_length (geom : List (String × ℚ × List ℚ)) :
    (mkBoxStructs geom).length = geom.length := by
  unfold mkBoxStructs
  rw [enumMap_length]
  exact (perm_sortByKey _ geom).length_eq

theorem mkBoxStructs_getElem (geom : List (String × ℚ × List ℚ)) (j : ℕ)
    (hj : j < (sortByKey (fun g => g.2.1) geom).length)
    (hj2 : j < (mkBoxStructs geom).length) :
    (mkBoxStructs geom)[j] =
      { name := ((sortByKey (fun g => g.2.1) geom)[j]).1,
        x := ((sortByKey (fun g => g.2.1) geom)[j]).2.1,
        data := ((sortByKey (fun g => g.2.1) geom)[j]).2.2,
        ymax := listMax ((sortByKey (fun g => g.2.1) geom)[j]).2.2,
        xi := j } := by
  unfold mkBoxStructs
  rw [enumMap_getElem _ _ 0 j hj (by rw [enumMap_length]; exact hj)]
  simp

theorem mkBoxStructs_xi (geom : List (String × ℚ × List ℚ)) (j : ℕ)
    (hj2 : j < (mkBoxStructs geom).length) :
    ((mkBoxStructs geom)[j]).xi = j := by
  have hj : j < (sortByKey (fun g => g.2.1) geom).length := by
    have := mkBoxStructs_length geom
    have := (perm_sortByKey (fun g : String × ℚ × List ℚ => g.2.1) geom).length_eq
    omega
  rw [mkBoxStructs_getElem geom j hj hj2]

theorem mkBoxStructs_x (geom : List (String × ℚ × List ℚ)) (j : ℕ)
    (hj : j < (sortByKey (fun g => g.2.1) geom).length)
    (hj2 : j < (mkBoxStructs geom).length) :
    ((mkBoxStructs geom)[j]).x =
      ((sortByKey (fun g => g.2.1) geom)[j]).2.1 := by
  rw [mkBoxStructs_getElem geom j hj hj2]

/-- Each resolved box sits in the box list at the index recorded in its own
`xi` field. -/
theorem mkBoxStructs_mem_get (geom : List (String × ℚ × List ℚ))
    (b : BoxStruct) (hb : b ∈ mkBoxStructs geom) :
    ∃ hxi : b.xi < (mkBoxStructs geom).length,
      (mkBoxStructs geom)[b.xi] = b := by
  obtain ⟨⟨j, hj⟩, hget⟩ := List.mem_iff_get.mp hb
  have hxi : b.xi = j := by
    rw [← hget]
    simp only [List.get_eq_getElem]
    exact mkBoxStructs_xi geom j hj
  rw [hxi]
  exact ⟨hj, by rw [← hget]; simp [List.get_eq_getElem]⟩

/-- With pairwise-distinct geometry x-positions, the resolved boxes are
strictly increasing in x. -/
theorem mkBoxStructs_pairwise (geom : List (String × ℚ × List ℚ))
    (hnd : (geom.map (fun g => g.2.1)).Nodup) :
    (mkBoxStructs geom).Pairwise (fun a b => a.x < b.x) := by
  have hperm := perm_sortByKey (fun g : String × ℚ × List ℚ => g.2.1) geom
  have hle := pairwise_le_sortByKey (fun g : String × ℚ × List ℚ => g.2.1) geom
  have hnds : ((sortByKey (fun g : String × ℚ × List ℚ => g.2.1) geom).map
      (fun g => g.2.1)).Nodup := ((hperm.map _).nodup_iff).mpr hnd
  have hnepw := List.pairwise_map.mp hnds
  have hstrict : (sortByKey (fun g : String × ℚ × List ℚ => g.2.1)
      geom).Pairwise (fun a b => a.2.1 < b.2.1) :=
    (hle.and hnepw).imp (fun hc => lt_of_le_of_ne hc.1 hc.2)
  rw [List.pairwise_iff_get]
  intro i j hij
  have hi2 : (i : ℕ) < (mkBoxStructs geom).length := i.isLt
  have hj2 : (j : ℕ) < (mkBoxStructs geom).length := j.isLt
  have hi3 : (i : ℕ) < (sortByKey (fun g : String × ℚ × List ℚ => g.2.1)
      geom).length := by
    have := mkBoxStructs_length geom
    have := hperm.length_eq
    omega
  have hj3 : (j : ℕ) < (sortByKey (fun g : String × ℚ × List ℚ => g.2.1)
      geom).length := by
    have := mkBoxStructs_length geom
    have := hperm.length_eq
    omega
  simp only [List.get_eq_getElem]
  rw [mkBoxStructs_x geom i hi3 hi2, mkBoxStructs_x geom j hj3 hj2]
  exact List.pairwise_iff_get.mp hstrict ⟨i, hi3⟩ ⟨j, hj3⟩ hij

theorem initStack_length (loc : Loc) (ytop : ℚ) (boxes : List BoxStruct) :
    (initStack loc ytop boxes).length = boxes.length := by
  simp [initStack]

theorem initStack_x (loc : Loc) (ytop : ℚ) (boxes : List BoxStruct) (j : ℕ)
    (hj : j < boxes.length) (hj2 : j < (initStack loc ytop boxes).length) :
    ((initStack loc ytop boxes)[j]).x = (boxes[j]).x := by
  simp [initStack]

theorem initStack_wf (loc : Loc) (ytop : ℚ) (boxes : List BoxStruct)
    (hpw : boxes.Pairwise (fun a b => a.x < b.x)) :
    stackWF (initStack loc ytop boxes) := by
  rw [stackWF, List.pairwise_iff_get]
  intro i j hij
  have hi : (i : ℕ) < boxes.length := by
    have := initStack_length loc ytop boxes
    have := i.isLt
    omega
  have hj : (j : ℕ) < boxes.length := by
    have := initStack_length loc ytop boxes
    have := j.isLt
    omega
  simp only [List.get_eq_getElem]
  rw [initStack_x loc ytop boxes i hi i.isLt,
    initStack_x loc ytop boxes j hj j.isLt]
  exact List.pairwise_iff_get.mp hpw ⟨i, hi⟩ ⟨j, hj⟩ hij

/-- Each resolved pair's members come from the box list, oriented by
x-position. -/
theorem buildPairs_mem_boxes (boxes : List BoxStruct) :
    ∀ (reqs : List (String × String)) (i : ℕ) (l : List PairStruct),
      buildPairs boxes reqs i = Except.ok l →
      ∀ p ∈ l, p.left ∈ boxes ∧ p.right ∈ boxes ∧ p.left.x ≤ p.right.x := by
  intro reqs
  induction reqs with
  | nil =>
    intro i l h p hp
    simp only [buildPairs, Except.ok.injEq] at h
    subst h
    simp at hp
  | cons q rest ih =>
    intro i l h p hp
    cases hf1 : boxes.find? (fun s => decide (s.name = q.1)) with
    | none => rw [buildPairs, hf1] at h; simp at h
    | some s1 =>
      cases hf2 : boxes.find? (fun s => decide (s.name = q.2)) with
      | none => rw [buildPairs, hf1, hf2] at h; simp at h
      | some s2 =>
        rw [buildPairs, hf1, hf2] at h
        cases hrest : buildPairs boxes rest (i + 1) with
        | error e => rw [hrest] at h; simp at h
        | ok l2 =>
          rw [hrest] at h
          simp only [Except.ok.injEq] at h
          subst h
          have hm1 := List.mem_of_find?_eq_some hf1
          have hm2 := List.mem_of_find?_eq_some hf2
          rcases List.mem_cons.mp hp with heq | hp2
          · subst heq
            split
            · rename_i hle
              exact ⟨hm1, hm2, hle⟩
            · rename_i hnle
              exact ⟨hm2, hm1, le_of_not_le hnle⟩
          · exact ih (i + 1) l2 hrest p hp2

/-- A pair of resolved boxes, oriented by x, fits the initial stack. -/
theorem pairFits_initStack (geom : List (String × ℚ × List ℚ)) (loc : Loc)
    (ytop : ℚ) (p : PairStruct) (hl : p.left ∈ mkBoxStructs geom)
    (hr : p.right ∈ mkBoxStructs geom) (hle : p.left.x ≤ p.right.x) :
    pairFits (initStack loc ytop (mkBoxStructs geom)) p := by
  obtain ⟨hxl, hgl⟩ := mkBoxStructs_mem_get geom p.left hl
  obtain ⟨hxr, hgr⟩ := mkBoxStructs_mem_get geom p.right hr
  have hlen := initStack_length loc ytop (mkBoxStructs geom)
  refine ⟨hle, by omega, by omega, ?_, ?_⟩
  · simp only [List.get_eq_getElem]
    rw [initStack_x loc ytop (mkBoxStructs geom) p.left.xi hxl (by omega)]
    rw [hgl]
  · simp only [List.get_eq_getElem]
    rw [initStack_x loc ytop (mkBoxStructs geom) p.right.xi hxr (by omega)]
    rw [hgr]

/-- The loop facts of a normally-returning call, lifted through the
pipeline: the state sequence only raises the stack, lengths and x-positions
match the resolved boxes, each step's bracket base bounds the in-range tops
it queried, and each step marks its x-range with its consumed top. -/
theorem addStatAnnot_loop_facts (inp : AnnotInput) (out : AnnotOutput)
    (hok : addStatAnnot inp = Except.ok out)
    (hnd : (inp.geom.map (fun g => g.2.1)).Nodup)
    (hO : 0 ≤ resolvedYOffset inp) (hOB : 0 ≤ resolvedYOffsetToBox inp)
    (hh : 0 ≤ resolvedH inp)
    (hor : ∀ (i : ℕ) (b : ℚ), b ≤ inp.annotTopOracle i b) :
    out.states.length = out.sortedPairs.length + 1 ∧
    out.annots.length = out.sortedPairs.length ∧
    out.states.Pairwise (List.Forall₂ entryLe) ∧
    (∀ s ∈ out.states, s.length = (mkBoxStructs inp.geom).length ∧
      ∀ (q : ℕ) (hq : q < (mkBoxStructs inp.geom).length) (hq2 : q < s.length),
        (s[q]).x = ((mkBoxStructs inp.geom)[q]).x) ∧
    (∀ (j : ℕ) (hj : j < out.sortedPairs.length)
       (hj2 : j < out.states.length) (hjy : j < out.annots.length),
      ∀ e ∈ out.states[j], inRangeP out.sortedPairs[j] e →
        ∀ v : ℚ, e.topY = some v → v ≤ (out.annots[j]).1) ∧
    (∀ (j : ℕ) (hj : j < out.sortedPairs.length)
       (hj2 : j + 1 < out.states.length) (hjy : j < out.annots.length),
      ∀ e ∈ out.states[j + 1], inRangeP out.sortedPairs[j] e →
        e.topY = some (out.annots[j]).2) := by
  obtain ⟨hv, pairs, run, ysm, hp, hr, hys, hout⟩ := addStatAnnot_ok inp out hok
  subst hout
  dsimp only
  have hwf0 : stackWF (initStack inp.loc inp.ylim.2 (mkBoxStructs inp.geom)) :=
    initStack_wf _ _ _ (mkBoxStructs_pairwise inp.geom hnd)
  have hfits0 : ∀ pr ∈ (sortPairs pairs).zip
      (resultsOf inp (sortPairs pairs)),
      pairFits (initStack inp.loc inp.ylim.2 (mkBoxStructs inp.geom)) pr.1 := by
    intro pr hm
    obtain ⟨p2, r2⟩ := pr
    have hm1 : p2 ∈ sortPairs pairs := (List.of_mem_zip hm).1
    have hm2 : p2 ∈ pairs := (perm_sortByKey _ pairs).mem_iff.mp hm1
    obtain ⟨hbl, hbr, hble⟩ := buildPairs_mem_boxes _ _ _ _ hp p2 hm2
    exact pairFits_initStack inp.geom inp.loc inp.ylim.2 p2 hbl hbr hble
  have hrun : annotLoop (resolvedYOffset inp) (resolvedYOffsetToBox inp)
      (resolvedH inp) inp.annotTopOracle (textFor inp)
      (initStack inp.loc inp.ylim.2 (mkBoxStructs inp.geom))
      ((sortPairs pairs).zip (resultsOf inp (sortPairs pairs))) =
      Except.ok (run.1, run.2.1, run.2.2) := by
    unfold runCore at hr
    exact hr
  obtain ⟨ihL1, ihL2, ihPW, ihX, ihBEF, ihAFT⟩ :=
    annotLoop_spec (resolvedYOffset inp) (resolvedYOffsetToBox inp)
      (resolvedH inp) inp.annotTopOracle (textFor inp) hO hOB hh hor
      ((sortPairs pairs).zip (resultsOf inp (sortPairs pairs)))
      (initStack inp.loc inp.ylim.2 (mkBoxStructs inp.geom))
      run.1 run.2.1 run.2.2 hwf0 hfits0 hrun
  have hprslen : ((sortPairs pairs).zip
      (resultsOf inp (sortPairs pairs))).length = (sortPairs pairs).length := by
    rw [List.length_zip, resultsOf_length]
    exact Nat.min_self _
  have hzget : ∀ (j : ℕ) (hjz : j < ((sortPairs pairs).zip
      (resultsOf inp (sortPairs pairs))).length)
      (hjs : j < (sortPairs pairs).length),
      (((sortPairs pairs).zip (resultsOf inp (sortPairs pairs)))[j]).1 =
        (sortPairs pairs)[j] := by
    intro j hjz hjs
    rw [List.getElem_zip]
  refine ⟨?_, ?_, ?_, ?_, ?_, ?_⟩
  · simp only [List.length_cons]
    rw [ihL1, hprslen]
  · rw [ihL2, hprslen]
  · exact ihPW
  · intro s hs
    rcases List.mem_cons.mp hs with heq | hs2
    · subst heq
      refine ⟨by rw [initStack_length], ?_⟩
      intro q hq hq2
      exact initStack_x inp.loc inp.ylim.2 (mkBoxStructs inp.geom) q hq hq2
    · obtain ⟨hslen, hsx⟩ := ihX s hs2
      have hilen := initStack_length inp.loc inp.ylim.2 (mkBoxStructs inp.geom)
      refine ⟨by rw [hslen, hilen], ?_⟩
      intro q hq hq2
      have hqi : q < (initStack inp.loc inp.ylim.2
          (mkBoxStructs inp.geom)).length := by omega
      rw [hsx q hqi hq2]
      exact initStack_x inp.loc inp.ylim.2 (mkBoxStructs inp.geom) q hq hqi
  · intro j hj hj2 hjy
    have hjz : j < ((sortPairs pairs).zip
        (resultsOf inp (sortPairs pairs))).length := by omega
    have hres := ihBEF j hjz (by simpa using hj2) (by omega)
    rw [hzget j hjz hj] at hres
    intro e he hrange v hv
    exact hres e he hrange v hv
  · intro j hj hj2 hjy
    have hjz : j < ((sortPairs pairs).zip
        (resultsOf inp (sortPairs pairs))).length := by omega
    have hres := ihAFT j hjz (by simpa using hj2) (by omega)
    rw [hzget j hjz hj] at hres
    intro e he hrange
    exact hres e he hrange

/-- C7: with nonnegative configured offsets (line offsets and line height)
and the renderer contract (the measured text top is at least the bracket
top), the occupancy stack's `top_y` is monotonically non-decreasing at every
fixed position over the whole sequence of per-pair updates of one
normally-returning call: each update leaves every column's position fixed
and either keeps or raises its `top_y`. -/
theorem c7_topY_monotone (inp : AnnotInput) (out : AnnotOutput)
    (hok : addStatAnnot inp = Except.ok out)
    (hnd : (inp.geom.map (fun g => g.2.1)).Nodup)
    (hO : 0 ≤ resolvedYOffset inp) (hOB : 0 ≤ resolvedYOffsetToBox inp)
    (hh : 0 ≤ resolvedH inp)
    (hor : ∀ (i : ℕ) (b : ℚ), b ≤ inp.annotTopOracle i b) :
    List.Chain' (List.Forall₂ entryLe) out.states :=
  ((addStatAnnot_loop_facts inp out hok hnd hO hOB hh hor).2.2.1).chain'

/-- Witness for C7 on the concrete call. -/
theorem c7_witness :
    (addStatAnnot inpW = Except.ok outW ∧
      (inpW.geom.map (fun g => g.2.1)).Nodup ∧
      0 ≤ resolvedYOffset inpW ∧ 0 ≤ resolvedYOffsetToBox inpW ∧
      0 ≤ resolvedH inpW) ∧
    List.Chain' (List.Forall₂ entryLe) outW.states :=
  ⟨⟨by decide, by decide, by decide, by decide, by decide⟩,
    c7_topY_monotone inpW outW (by decide) (by decide) (by decide) (by decide)
      (by decide) (fun i b => le_refl b)⟩

/-- C6: with positive configured offsets, nonnegative line height and the
renderer contract, if the x-range of a later-processed pair contains a box
position that an earlier-processed pair's range also contains (hence a
position updated by that earlier annotation), the later bracket's base `y`
is at least the earlier annotation's consumed top: the new bracket does not
overlap it. -/
theorem c6_no_overlap (inp : AnnotInput) (out : AnnotOutput)
    (hok : addStatAnnot inp = Except.ok out)
    (hnd : (inp.geom.map (fun g => g.2.1)).Nodup)
    (hO : 0 < resolvedYOffset inp) (hOB : 0 < resolvedYOffsetToBox inp)
    (hh : 0 ≤ resolvedH inp)
    (hor : ∀ (i : ℕ) (b : ℚ), b ≤ inp.annotTopOracle i b)
    (k j : ℕ) (hk : k < out.sortedPairs.length)
    (hj : j < out.sortedPairs.length) (hkj : k < j)
    (b : BoxStruct) (hb : b ∈ mkBoxStructs inp.geom)
    (hbk1 : (out.sortedPairs[k]).left.x ≤ b.x)
    (hbk2 : b.x ≤ (out.sortedPairs[k]).right.x)
    (hbj1 : (out.sortedPairs[j]).left.x ≤ b.x)
    (hbj2 : b.x ≤ (out.sortedPairs[j]).right.x)
    (hky : k < out.annots.length) (hjy : j < out.annots.length) :
    (out.annots[k]).2 ≤ (out.annots[j]).1 := by
  obtain ⟨hSlen, hYlen, hPW, hX, hBEF, hAFT⟩ :=
    addStatAnnot_loop_facts inp out hok hnd (le_of_lt hO) (le_of_lt hOB) hh hor
  obtain ⟨hq, hbq⟩ := mkBoxStructs_mem_get inp.geom b hb
  have hk1S : k + 1 < out.states.length := by omega
  have hjS : j < out.states.length := by omega
  obtain ⟨hAklen, hAkx⟩ := hX (out.states[k + 1]) (List.getElem_mem hk1S)
  have hqk : b.xi < (out.states[k + 1]).length := by omega
  have hekx : ((out.states[k + 1])[b.xi]).x = b.x := by
    rw [hAkx b.xi hq hqk, hbq]
  have hek_top : ((out.states[k + 1])[b.xi]).topY = some (out.annots[k]).2 :=
    hAFT k hk hk1S hky ((out.states[k + 1])[b.xi]) (List.getElem_mem hqk)
      ⟨by rw [hekx]; exact hbk1, by rw [hekx]; exact hbk2⟩
  have hrel : List.Forall₂ entryLe (out.states[k + 1]) (out.states[j]) := by
    rcases Nat.lt_or_ge (k + 1) j with hlt | hge
    · exact List.pairwise_iff_get.mp hPW ⟨k + 1, hk1S⟩ ⟨j, hjS⟩ hlt
    · have heq : k + 1 = j := by omega
      subst heq
      exact forall₂_entryLe_refl _
  obtain ⟨hAjlen, hAjx⟩ := hX (out.states[j]) (List.getElem_mem hjS)
  have hqj : b.xi < (out.states[j]).length := by omega
  obtain ⟨hrlen, hrget⟩ := List.forall₂_iff_get.mp hrel
  have hF := hrget b.xi hqk hqj
  simp only [List.get_eq_getElem] at hF
  obtain ⟨hx2, htop⟩ := hF
  obtain ⟨w, hw, hle⟩ := htop (out.annots[k]).2 hek_top
  have hejx : ((out.states[j])[b.xi]).x = b.x := by
    rw [hAjx b.xi hq hqj, hbq]
  have hbefj := hBEF j hj hjS hjy ((out.states[j])[b.xi])
    (List.getElem_mem hqj)
    ⟨by rw [hejx]; exact hbj1, by rw [hejx]; exact hbj2⟩ w hw
  exact le_trans hle hbefj

/-- The box B of the concrete call, lying in both processed pairs' ranges. -/
def boxB : BoxStruct := ⟨"B", 1, [2], some 2, 1⟩

/-- Witness for C6 on the concrete call: the second processed pair (A,C)
spans the position of box B, already annotated by the first processed pair
(B,C); the second bracket's base 3.3 is at least the first annotation's
consumed top 2.8. -/
theorem c6_witness :
    (addStatAnnot inpW = Except.ok outW ∧ boxB ∈ mkBoxStructs inpW.geom ∧
      0 < resolvedYOffset inpW ∧ 0 < resolvedYOffsetToBox inpW) ∧
    (outW.annots.get ⟨0, by decide⟩).2 ≤ (outW.annots.get ⟨1, by decide⟩).1 :=
  ⟨⟨by decide, by decide, by decide, by decide⟩,
    c6_no_overlap inpW outW (by decide) (by decide) (by decide) (by decide)
      (by decide) (fun i b => le_refl b) 0 1 (by decide) (by decide)
      (by decide) boxB (by decide) (by decide) (by decide) (by decide)
      (by decide) (by decide) (by decide)⟩

end Statannot
